import Mathlib

/-!
# Typed key-value store over an ordered byte store

A shallow embedding of `kvdb.go`, `types.go` and `pebble/pebble.go`.

* Go `byte` is `Fin 256`; a `[]byte` is a `List Byte` (the code never tells a
  nil slice from an empty one, both are `[]`).
* Go results `(x, err)` are pairs `x × Option Error`, `none` being a nil error.
* A Go run-time panic (index out of range) is `none` of an outer `Option`.
* Stateful stores are modelled by explicit state passing.
* `int` and `uint` are 64 bits wide.
* A key type is a non-interface type or the interface type `any`, whose
  values carry their dynamic type.
-/

namespace Kvdb

/-! ## Bytes -/

/-- A Go `byte` (`uint8`). -/
abbrev Byte := Fin 256

/-- A Go `[]byte`. -/
abbrev Bytes := List Byte

/-- Go conversion `byte(v)` of an unsigned integer: the low eight bits. -/
def toByte (v : Nat) : Byte := ⟨v % 256, Nat.mod_lt _ (by decide)⟩

/-- The comparison `bytes.Compare(a, b) < 0`: unsigned lexicographic order on
byte sequences, a proper prefix being smaller. -/
def bytesLess : Bytes → Bytes → Bool
  | [], [] => false
  | [], _ :: _ => true
  | _ :: _, [] => false
  | a :: as, b :: bs => decide (a < b) || (decide (a = b) && bytesLess as bs)

/-! ## Errors -/

/-- Modelled from the spec: the error values, package `stderr` not being among
the sources. `ErrUnimplemented` and `ErrIncorrectSize` are its sentinels for
the error kinds `Unimplemented` and `IncorrectSize`, `Wrap err msg` is the
result of `stderr.Wrap(err, msg)`, an error that wraps `err`; `ErrNotFound` is
the engine's sentinel for `NotFound`, `other` any further error (codec, I/O). -/
inductive Error where
  | ErrUnimplemented
  | ErrIncorrectSize
  | ErrNotFound
  | Wrap (err : Error) (msg : String)
  | other (code : Nat)
  deriving DecidableEq, Repr

/-- The test `errors.Is(e, target)`: `e` is `target` or wraps it. -/
def Error.Is : Error → Error → Bool
  | .Wrap err msg, target =>
      decide (Error.Wrap err msg = target) || Error.Is err target
  | e, target => decide (e = target)

/-! ## Machine integers -/

/-- Unsigned integer of `w` bits. -/
abbrev UIntW (w : Nat) := Fin (2 ^ w)

/-- Signed integer of `w` bits, two's complement range. -/
abbrev SIntW (w : Nat) := { i : Int // -(2 : Int) ^ (w - 1) ≤ i ∧ i < (2 : Int) ^ (w - 1) }

abbrev uint8 := UIntW 8
abbrev uint16 := UIntW 16
abbrev uint32 := UIntW 32
abbrev uint64 := UIntW 64
abbrev uint := UIntW 64
abbrev int8 := SIntW 8
abbrev int16 := SIntW 16
abbrev int32 := SIntW 32
abbrev int64 := SIntW 64
abbrev int := SIntW 64

/-- Bit pattern of a signed value read as unsigned: `k mod 2^w`. -/
def asUnsigned (w : Nat) (k : Int) : Nat := (k % (2 : Int) ^ w).toNat

/-- Two's-complement reading of the low `w` bits of `n`. -/
def asSigned (w : Nat) (n : Nat) : Int :=
  if n % 2 ^ w < 2 ^ (w - 1) then ((n % 2 ^ w : Nat) : Int)
  else ((n % 2 ^ w : Nat) : Int) - (2 : Int) ^ w

theorem asUnsigned_lt (w : Nat) (k : Int) : asUnsigned w k < 2 ^ w := by
  unfold asUnsigned
  have hpos : (0 : Int) < (2 : Int) ^ w := by positivity
  have h1 := Int.emod_lt_of_pos k hpos
  have h2 := Int.emod_nonneg k (ne_of_gt hpos)
  have h3 : (((k % (2 : Int) ^ w).toNat : Nat) : Int) = k % (2 : Int) ^ w := Int.toNat_of_nonneg h2
  have h4 : (((2 ^ w : Nat)) : Int) = (2 : Int) ^ w := by push_cast; rfl
  omega

theorem asSigned_range (w : Nat) (hw : 0 < w) (n : Nat) :
    -(2 : Int) ^ (w - 1) ≤ asSigned w n ∧ asSigned w n < (2 : Int) ^ (w - 1) := by
  unfold asSigned
  obtain ⟨v, rfl⟩ : ∃ v, w = v + 1 := ⟨w - 1, by omega⟩
  simp only [Nat.add_sub_cancel]
  have hlt : n % 2 ^ (v + 1) < 2 ^ (v + 1) := Nat.mod_lt _ (by positivity)
  have hN : (2 : Nat) ^ (v + 1) = 2 * 2 ^ v := by rw [pow_succ]; ring
  have hZ : (2 : Int) ^ (v + 1) = 2 * (2 : Int) ^ v := by rw [pow_succ]; ring
  have hc : (((2 ^ v : Nat)) : Int) = (2 : Int) ^ v := by push_cast; rfl
  split <;> omega

/-- Go conversion `uintW(k)` of an integer value: its low `w` bits. -/
def toUIntW (w : Nat) (k : Int) : UIntW w := ⟨asUnsigned w k, asUnsigned_lt w k⟩

/-- Go conversion `intW(v)` of an unsigned value, for `w > 0`. -/
def toSIntW (w : Nat) (hw : 0 < w) (n : Nat) : SIntW w := ⟨asSigned w n, asSigned_range w hw n⟩

/-! ## Package `encoding/binary`, big-endian byte order -/

/-- The call `binary.BigEndian.PutUint16(bs, v)` on a fresh two-byte slice. -/
def PutUint16 (v : uint16) : Bytes := [toByte (v.val >>> 8), toByte v.val]

/-- The call `binary.BigEndian.PutUint32(bs, v)` on a fresh four-byte slice. -/
def PutUint32 (v : uint32) : Bytes :=
  [toByte (v.val >>> 24), toByte (v.val >>> 16), toByte (v.val >>> 8), toByte v.val]

/-- The call `binary.BigEndian.PutUint64(bs, v)` on a fresh eight-byte slice. -/
def PutUint64 (v : uint64) : Bytes :=
  [toByte (v.val >>> 56), toByte (v.val >>> 48), toByte (v.val >>> 40), toByte (v.val >>> 32),
   toByte (v.val >>> 24), toByte (v.val >>> 16), toByte (v.val >>> 8), toByte v.val]

/-- The call `binary.BigEndian.Uint16(b)`; it panics (`none`) on fewer than two bytes. -/
def Uint16 : Bytes → Option Nat
  | b0 :: b1 :: _ => some ((b1.val ||| b0.val <<< 8) % 2 ^ 16)
  | _ => none

/-- The call `binary.BigEndian.Uint32(b)`; it panics (`none`) on fewer than four bytes. -/
def Uint32 : Bytes → Option Nat
  | b0 :: b1 :: b2 :: b3 :: _ =>
      some ((b3.val ||| b2.val <<< 8 ||| b1.val <<< 16 ||| b0.val <<< 24) % 2 ^ 32)
  | _ => none

/-- The call `binary.BigEndian.Uint64(b)`; it panics (`none`) on fewer than eight bytes. -/
def Uint64 : Bytes → Option Nat
  | b0 :: b1 :: b2 :: b3 :: b4 :: b5 :: b6 :: b7 :: _ =>
      some ((b7.val ||| b6.val <<< 8 ||| b5.val <<< 16 ||| b4.val <<< 24 |||
        b3.val <<< 32 ||| b2.val <<< 40 ||| b1.val <<< 48 ||| b0.val <<< 56) % 2 ^ 64)
  | _ => none

/-! ## `types.go` -/

/-- The interface `Marshallable`. `Unmarshal` runs on a copy of its receiver
(Go passes receivers by value, and `any(x)` boxes a copy of `x`): the first
component of its result is that copy after the call, the second the returned
error. A caller that holds the receiver only as a plain variable sees the
error alone. -/
structure Marshallable (T : Type) where
  Marshal : T → Bytes × Option Error
  Unmarshal : T → Bytes → T × Option Error

/-- The interface `BinaryKeyValueStore`, over a store state `σ`. A visitor
handed to `Range` threads its own captured state `τ` and may panic. -/
structure BinaryKeyValueStore (σ : Type) where
  Put : σ → Bytes → Bytes → σ × Option Error
  Get : σ → Bytes → Bytes × Option Error
  Has : σ → Bytes → Bool × Option Error
  Delete : σ → Bytes → σ × Option Error
  Range : {τ : Type} → σ → Bytes → Bytes →
    (τ → Bytes → Bytes → Option (τ × Option Error)) → τ → Option (τ × Option Error)

/-! ## Key kinds -/

/-- A fixed-size byte array `[n]byte`. -/
abbrev Block (n : Nat) := { l : Bytes // l.length = n }

/-- The zero value of `[n]byte`. -/
def Block.zero (n : Nat) : Block n := ⟨List.replicate n 0, List.length_replicate n 0⟩

/-- The statements `var arr [n]byte; copy(arr[:], data)`: the first
`min n (len data)` bytes are copied, the rest of `arr` stays zero. -/
def copyBlock (n : Nat) (data : Bytes) : Block n :=
  ⟨data.take n ++ List.replicate (n - data.length) 0, by
    simp only [List.length_append, List.length_take, List.length_replicate]; omega⟩

/-- The key types that `marshallKey` encodes itself, one per `case` of its
type switch. The `[]byte` case is not among them: a slice type is not
`comparable`, so it cannot instantiate `K`; a `[]byte` reaches the switch only
inside an interface value, see `AnyKey`. -/
inductive Builtin where
  | string | bytes16 | bytes32 | bytes64
  | int8 | uint8 | int16 | uint16 | int32 | uint32 | int64 | uint64 | int | uint
  deriving DecidableEq, Repr

/-- Values of a built-in key type. A Go string is its byte sequence. -/
@[reducible] def Builtin.Val : Builtin → Type
  | .string => Bytes
  | .bytes16 => Block 16
  | .bytes32 => Block 32
  | .bytes64 => Block 64
  | .int8 => Kvdb.int8
  | .uint8 => Kvdb.uint8
  | .int16 => Kvdb.int16
  | .uint16 => Kvdb.uint16
  | .int32 => Kvdb.int32
  | .uint32 => Kvdb.uint32
  | .int64 => Kvdb.int64
  | .uint64 => Kvdb.uint64
  | .int => Kvdb.int
  | .uint => Kvdb.uint

/-- The zero value `var key K` of a built-in key type. -/
def Builtin.zero : (b : Builtin) → b.Val
  | .string => ([] : Bytes)
  | .bytes16 => Block.zero 16
  | .bytes32 => Block.zero 32
  | .bytes64 => Block.zero 64
  | .int8 => (⟨0, by decide⟩ : Kvdb.int8)
  | .uint8 => (⟨0, by decide⟩ : Kvdb.uint8)
  | .int16 => (⟨0, by decide⟩ : Kvdb.int16)
  | .uint16 => (⟨0, by decide⟩ : Kvdb.uint16)
  | .int32 => (⟨0, by decide⟩ : Kvdb.int32)
  | .uint32 => (⟨0, by decide⟩ : Kvdb.uint32)
  | .int64 => (⟨0, by decide⟩ : Kvdb.int64)
  | .uint64 => (⟨0, by decide⟩ : Kvdb.uint64)
  | .int => (⟨0, by decide⟩ : Kvdb.int)
  | .uint => (⟨0, by decide⟩ : Kvdb.uint)

/-- A value of the interface type `any`, as far as the type switch
`any(key).(type)` of `marshallKey` tells values apart: the nil interface, a
`[]byte`, a value of a built-in key type, a value of a type that implements
`Marshallable` (given by what its `Marshal` returns), or a value of any other
type. -/
inductive AnyKey where
  | nil
  | byteSlice (k : Bytes)
  | builtin (b : Builtin) (k : b.Val)
  | marshallable (result : Bytes × Option Error)
  | other

/-- The type argument `K` of the typed store: a built-in key type, a
non-interface type that implements `Marshallable`, any other non-interface
comparable type, or the interface type `any` (the instantiation
`KeyValueStoreImpl[any, Marshallable, BinaryKeyValueStore]` of `kvdb.go`). -/
inductive KeyKind : Type 1 where
  | builtin (b : Builtin)
  | marshallable (α : Type) (zero : α) (m : Marshallable α)
  | unsupported (α : Type) (zero : α)
  | any

/-- Values of the key type. -/
@[reducible] def KeyKind.Val : KeyKind → Type
  | .builtin b => b.Val
  | .marshallable α _ _ => α
  | .unsupported α _ => α
  | .any => AnyKey

/-- The zero value `var key K`. -/
def KeyKind.zero : (K : KeyKind) → K.Val
  | .builtin b => b.zero
  | .marshallable _ z _ => z
  | .unsupported _ z => z
  | .any => AnyKey.nil

/-! ## `kvdb.go`: key codec -/

/-- The method `marshallKey`. The switch is on the dynamic type of the key:
for a non-interface `K` that is the type `K` itself, for `K = any` it is the
type of the value that the interface holds. -/
def marshallKey : (K : KeyKind) → K.Val → Bytes × Option Error
  | .builtin .string, k => (k, none)
  | .builtin .bytes16, k => (k.val, none)
  | .builtin .bytes32, k => (k.val, none)
  | .builtin .bytes64, k => (k.val, none)
  | .builtin .int8, k => ([toByte (asUnsigned 8 k.val)], none)
  | .builtin .uint8, k => ([toByte k.val], none)
  | .builtin .int16, k => (PutUint16 (toUIntW 16 k.val), none)
  | .builtin .uint16, k => (PutUint16 k, none)
  | .builtin .int32, k => (PutUint32 (toUIntW 32 k.val), none)
  | .builtin .uint32, k => (PutUint32 k, none)
  | .builtin .int64, k => (PutUint64 (toUIntW 64 k.val), none)
  | .builtin .uint64, k => (PutUint64 k, none)
  | .builtin .int, k => (PutUint64 (toUIntW 64 k.val), none)
  | .builtin .uint, k => (PutUint64 (toUIntW 64 (k.val : Int)), none)
  | .marshallable _ _ m, k => m.Marshal k
  | .unsupported _ _, _ => ([], some .ErrUnimplemented)
  | .any, .nil => ([], some .ErrUnimplemented)
  | .any, .byteSlice k => (k, none)
  | .any, .builtin .string k => (k, none)
  | .any, .builtin .bytes16 k => (k.val, none)
  | .any, .builtin .bytes32 k => (k.val, none)
  | .any, .builtin .bytes64 k => (k.val, none)
  | .any, .builtin .int8 k => ([toByte (asUnsigned 8 k.val)], none)
  | .any, .builtin .uint8 k => ([toByte k.val], none)
  | .any, .builtin .int16 k => (PutUint16 (toUIntW 16 k.val), none)
  | .any, .builtin .uint16 k => (PutUint16 k, none)
  | .any, .builtin .int32 k => (PutUint32 (toUIntW 32 k.val), none)
  | .any, .builtin .uint32 k => (PutUint32 k, none)
  | .any, .builtin .int64 k => (PutUint64 (toUIntW 64 k.val), none)
  | .any, .builtin .uint64 k => (PutUint64 k, none)
  | .any, .builtin .int k => (PutUint64 (toUIntW 64 k.val), none)
  | .any, .builtin .uint k => (PutUint64 (toUIntW 64 (k.val : Int)), none)
  | .any, .marshallable result => result
  | .any, .other => ([], some .ErrUnimplemented)

/-- The length guard and decoding shared by the integer cases of
`unmarshallKey`: `if len(data) != n { return key, stderr.Wrap(...) }`, then
the conversion of what `read` returns. -/
def decodeInt {α : Type} (zero : α) (n : Nat) (msg : String) (data : Bytes)
    (read : Bytes → Option Nat) (conv : Nat → α) : Option (α × Option Error) :=
  if data.length ≠ n then some (zero, some (.Wrap .ErrIncorrectSize msg))
  else (read data).map fun v => (conv v, none)

/-- The method `unmarshallKey`. The outer `none` is a run-time panic. The
switch is on the zero value `var key K`; for `K = any` that is the nil
interface, which no case matches and which is not `Marshallable`. -/
def unmarshallKey : (K : KeyKind) → Bytes → Option (K.Val × Option Error)
  | .builtin .string, data => some (data, none)
  | .builtin .bytes16, data => some (copyBlock 16 data, none)
  | .builtin .bytes32, data => some (copyBlock 32 data, none)
  | .builtin .bytes64, data => some (copyBlock 64 data, none)
  | .builtin .int8, data =>
      decodeInt (Builtin.zero .int8) 1 ("invalid data length for int8 key") data
        (fun d => d.head?.map Fin.val) (toSIntW 8 (by decide))
  | .builtin .uint8, data =>
      decodeInt (Builtin.zero .uint8) 1 ("invalid data length for uint8 key") data
        (fun d => d.head?.map Fin.val) (fun v => (toByte v : Kvdb.uint8))
  | .builtin .int16, data =>
      decodeInt (Builtin.zero .int16) 2 ("invalid data length for int16 key") data
        Uint16 (toSIntW 16 (by decide))
  | .builtin .uint16, data =>
      decodeInt (Builtin.zero .uint16) 2 ("invalid data length for uint16 key") data
        Uint16 (fun v => toUIntW 16 (v : Int))
  | .builtin .int32, data =>
      decodeInt (Builtin.zero .int32) 4 ("invalid data length for int32 key") data
        Uint32 (toSIntW 32 (by decide))
  | .builtin .uint32, data =>
      decodeInt (Builtin.zero .uint32) 4 ("invalid data length for uint32 key") data
        Uint32 (fun v => toUIntW 32 (v : Int))
  | .builtin .int64, data =>
      decodeInt (Builtin.zero .int64) 8 ("invalid data length for int64 key") data
        Uint64 (toSIntW 64 (by decide))
  | .builtin .uint64, data =>
      decodeInt (Builtin.zero .uint64) 8 ("invalid data length for uint64 key") data
        Uint64 (fun v => toUIntW 64 (v : Int))
  | .builtin .int, data =>
      decodeInt (Builtin.zero .int) 8 ("invalid data length for int key") data
        Uint64 (toSIntW 64 (by decide))
  | .builtin .uint, data =>
      decodeInt (Builtin.zero .uint) 8 ("invalid data length for uint key") data
        Uint64 (fun v => toUIntW 64 (v : Int))
  | .marshallable _ zero m, data =>
      match (m.Unmarshal zero data).2 with
      | some err => some (zero, some err)
      | none => some (zero, none)
  | .unsupported _ zero, _ => some (zero, some .ErrUnimplemented)
  | .any, _ => some (AnyKey.nil, some .ErrUnimplemented)

/-! ## `pebble/pebble.go`: the raw store adapter -/

/-- The part of the external engine handle `*pebble.DB` that the adapter
calls, over an engine state `σ`. `Get` stands for `db.Get` without its closer;
`NewIter` gives the rows that `First`, `Valid` and `Next` step through for the
bounds `LowerBound` and `UpperBound`, or the error of `db.NewIter`. -/
structure DB (σ : Type) where
  Set : σ → Bytes → Bytes → σ × Option Error
  Get : σ → Bytes → Bytes × Option Error
  Delete : σ → Bytes → σ × Option Error
  NewIter : σ → Bytes → Bytes → List (Bytes × Bytes) × Option Error

/-- The loop `for iter.First(); iter.Valid(); iter.Next()` of
`PebbleKeyValueStore.Range` over the rows of the iterator. -/
def rangeLoop {τ : Type} (fn : τ → Bytes → Bytes → Option (τ × Option Error)) :
    List (Bytes × Bytes) → τ → Option (τ × Option Error)
  | [], t => some (t, none)
  | (key, value) :: rest, t =>
      match fn t key value with
      | none => none
      | some (t', some err) => some (t', some err)
      | some (t', none) => rangeLoop fn rest t'

/-- The type `PebbleKeyValueStore` with its methods `Put`, `Get`, `Has`,
`Delete` and `Range`. -/
def PebbleKeyValueStore {σ : Type} (db : DB σ) : BinaryKeyValueStore σ where
  Put := fun p key value => db.Set p key value
  Get := fun p key =>
    match db.Get p key with
    | (_, some err) => ([], some err)
    | (value, none) => (value, none)
  Has := fun p key =>
    match db.Get p key with
    | (_, some err) => if err = .ErrNotFound then (false, none) else (false, some err)
    | (_, none) => (true, none)
  Delete := fun p key => db.Delete p key
  Range := fun p frm upto fn t =>
    match db.NewIter p frm upto with
    | (_, some err) => some (t, some err)
    | (rows, none) => rangeLoop fn rows t

/-- State of the engine seen as an ordered byte-keyed map: its rows. -/
abbrev MemDB := List (Bytes × Bytes)

/-- Point lookup in the map. -/
def MemDB.lookup (db : MemDB) (key : Bytes) : Option Bytes :=
  (db.find? fun r => decide (r.1 = key)).map Prod.snd

/-- Ordered insertion that overwrites the value of an existing key. -/
def MemDB.insert : MemDB → Bytes → Bytes → MemDB
  | [], key, value => [(key, value)]
  | r :: rest, key, value =>
      if bytesLess key r.1 then (key, value) :: r :: rest
      else if key = r.1 then (key, value) :: rest
      else r :: MemDB.insert rest key value

/-- Removal of a key; nothing happens when it is absent. -/
def MemDB.erase (db : MemDB) (key : Bytes) : MemDB :=
  db.filter fun r => !decide (r.1 = key)

/-- The rows with `frm ≤ key < upto`, in stored order. -/
def MemDB.scan (db : MemDB) (frm upto : Bytes) : List (Bytes × Bytes) :=
  db.filter fun r => !bytesLess r.1 frm && bytesLess r.1 upto

/-- Modelled from the spec: the external storage engine as an ordered
byte-keyed map. `put` overwrites the value of an existing key, `get` fails
with `NotFound` if the key is absent, `delete` of an absent key is not an
error, and iteration yields the keys in `[from, to)` in ascending byte order. -/
def memDB : DB MemDB where
  Set := fun db key value => (db.insert key value, none)
  Get := fun db key =>
    match db.lookup key with
    | some value => (value, none)
    | none => ([], some .ErrNotFound)
  Delete := fun db key => (db.erase key, none)
  NewIter := fun db frm upto => (db.scan frm upto, none)

/-! ## `kvdb.go`: the typed store -/

/-- The type `KeyValueStoreImpl[K, T, B]`: its type arguments `K` and `T`
(with the zero value of `T` and the `Marshallable` methods that
`(any)(value).(Marshallable)` finds), and the field `Store`. -/
structure KeyValueStoreImpl (σ : Type) where
  K : KeyKind
  T : Type
  zero : T
  codec : Marshallable T
  Store : BinaryKeyValueStore σ

/-- The constructor `NewKeyValueStore`. -/
def NewKeyValueStore {σ : Type} (K : KeyKind) (T : Type) (zero : T) (codec : Marshallable T)
    (store : BinaryKeyValueStore σ) : KeyValueStoreImpl σ :=
  { K := K, T := T, zero := zero, codec := codec, Store := store }

namespace KeyValueStoreImpl

variable {σ : Type}

/-- The method `Put`. -/
def Put (kvs : KeyValueStoreImpl σ) (s : σ) (key : kvs.K.Val) (value : kvs.T) :
    σ × Option Error :=
  match marshallKey kvs.K key with
  | (_, some err) => (s, some err)
  | (k, none) =>
      match kvs.codec.Marshal value with
      | (_, some err) => (s, some err)
      | (v, none) => kvs.Store.Put s k v

/-- The method `Get`. After `var value T`, `Unmarshal` is called on the boxed
copy `(any)(value)`; the variable `value` that is returned is not touched. -/
def Get (kvs : KeyValueStoreImpl σ) (s : σ) (key : kvs.K.Val) : kvs.T × Option Error :=
  match marshallKey kvs.K key with
  | (_, some err) => (kvs.zero, some err)
  | (k, none) =>
      match kvs.Store.Get s k with
      | (_, some err) => (kvs.zero, some err)
      | (v, none) =>
          let value := kvs.zero
          let err := (kvs.codec.Unmarshal value v).2
          (value, err)

/-- The method `Has`. -/
def Has (kvs : KeyValueStoreImpl σ) (s : σ) (key : kvs.K.Val) : Bool × Option Error :=
  match marshallKey kvs.K key with
  | (_, some err) => (false, some err)
  | (k, none) => kvs.Store.Has s k

/-- The method `Delete`. -/
def Delete (kvs : KeyValueStoreImpl σ) (s : σ) (key : kvs.K.Val) : σ × Option Error :=
  match marshallKey kvs.K key with
  | (_, some err) => (s, some err)
  | (k, none) => kvs.Store.Delete s k

/-- The method `Range`; the visitor `fn` threads its captured state `τ`. -/
def Range {τ : Type} (kvs : KeyValueStoreImpl σ) (s : σ) (frm upto : kvs.K.Val)
    (fn : τ → kvs.K.Val → kvs.T → Option (τ × Option Error)) (t : τ) :
    Option (τ × Option Error) :=
  match marshallKey kvs.K frm with
  | (_, some err) => some (t, some err)
  | (f, none) =>
      match marshallKey kvs.K upto with
      | (_, some err) => some (t, some err)
      | (tb, none) =>
          kvs.Store.Range s f tb (fun acc kb vb =>
            match unmarshallKey kvs.K kb with
            | none => none
            | some (_, some err) => some (acc, some err)
            | some (k, none) =>
                let v := kvs.zero
                match (kvs.codec.Unmarshal v vb).2 with
                | some err => some (acc, some err)
                | none => fn acc k v) t

/-- The method `Collect`; a nil result slice is `none`. -/
def Collect (kvs : KeyValueStoreImpl σ) (s : σ) (frm upto : kvs.K.Val) :
    Option (Option (List kvs.T) × Option Error) :=
  match kvs.Range s frm upto (fun r _ value => some (r ++ [value], none)) ([] : List kvs.T) with
  | none => none
  | some (_, some err) => some (none, some err)
  | some (r, none) => some (some r, none)

end KeyValueStoreImpl

/-! ## Vocabulary of the properties -/

/-- The number that a byte sequence denotes in big-endian order. -/
def beVal : Bytes → Nat
  | [] => 0
  | b :: bs => b.val * 256 ^ bs.length + beVal bs

/-- The natural order `k1 < k2` of a built-in key type: numeric order for the
integers, byte-wise lexicographic order for strings (the Go operator `<`) and
for byte arrays. -/
def Builtin.lt : (b : Builtin) → b.Val → b.Val → Prop
  | .string, k1, k2 => bytesLess k1 k2 = true
  | .bytes16, k1, k2 => bytesLess k1.val k2.val = true
  | .bytes32, k1, k2 => bytesLess k1.val k2.val = true
  | .bytes64, k1, k2 => bytesLess k1.val k2.val = true
  | .int8, k1, k2 => k1.val < k2.val
  | .uint8, k1, k2 => k1.val < k2.val
  | .int16, k1, k2 => k1.val < k2.val
  | .uint16, k1, k2 => k1.val < k2.val
  | .int32, k1, k2 => k1.val < k2.val
  | .uint32, k1, k2 => k1.val < k2.val
  | .int64, k1, k2 => k1.val < k2.val
  | .uint64, k1, k2 => k1.val < k2.val
  | .int, k1, k2 => k1.val < k2.val
  | .uint, k1, k2 => k1.val < k2.val

/-- The unsigned integer key types. -/
def Builtin.isUnsigned : Builtin → Bool
  | .uint8 | .uint16 | .uint32 | .uint64 | .uint => true
  | _ => false

/-- The numeric value of a key of a signed integer type, `none` for the other
key types. -/
def Builtin.signedVal : (b : Builtin) → b.Val → Option Int
  | .int8, k => some k.val
  | .int16, k => some k.val
  | .int32, k => some k.val
  | .int64, k => some k.val
  | .int, k => some k.val
  | _, _ => none

/-- Width in bytes of the encoding of an integer key type, `none` for the
other key types. -/
def Builtin.intWidth : Builtin → Option Nat
  | .int8 | .uint8 => some 1
  | .int16 | .uint16 => some 2
  | .int32 | .uint32 => some 4
  | .int64 | .uint64 | .int | .uint => some 8
  | _ => none

/-- Block size of a fixed-size byte array key type, `none` for the other key
types. -/
def Builtin.blockSize : Builtin → Option Nat
  | .bytes16 => some 16
  | .bytes32 => some 32
  | .bytes64 => some 64
  | _ => none

/-- Big-endian fixed-width layout: `bs` has `n` bytes and byte `i` (0-based)
is `(v >> (8 * (n - 1 - i))) mod 256`. -/
def IsBigEndian (n v : Nat) (bs : Bytes) : Prop :=
  bs.length = n ∧ ∀ i : Fin bs.length, (bs.get i).val = (v >>> (8 * (n - 1 - i.val))) % 256

/-- The natural order of a built-in key type is decidable. -/
instance Builtin.decidableLt : (b : Builtin) → (k1 k2 : b.Val) → Decidable (b.lt k1 k2)
  | .string, k1, k2 => inferInstanceAs (Decidable (bytesLess k1 k2 = true))
  | .bytes16, k1, k2 => inferInstanceAs (Decidable (bytesLess k1.val k2.val = true))
  | .bytes32, k1, k2 => inferInstanceAs (Decidable (bytesLess k1.val k2.val = true))
  | .bytes64, k1, k2 => inferInstanceAs (Decidable (bytesLess k1.val k2.val = true))
  | .int8, k1, k2 => inferInstanceAs (Decidable (k1.val < k2.val))
  | .uint8, k1, k2 => inferInstanceAs (Decidable (k1.val < k2.val))
  | .int16, k1, k2 => inferInstanceAs (Decidable (k1.val < k2.val))
  | .uint16, k1, k2 => inferInstanceAs (Decidable (k1.val < k2.val))
  | .int32, k1, k2 => inferInstanceAs (Decidable (k1.val < k2.val))
  | .uint32, k1, k2 => inferInstanceAs (Decidable (k1.val < k2.val))
  | .int64, k1, k2 => inferInstanceAs (Decidable (k1.val < k2.val))
  | .uint64, k1, k2 => inferInstanceAs (Decidable (k1.val < k2.val))
  | .int, k1, k2 => inferInstanceAs (Decidable (k1.val < k2.val))
  | .uint, k1, k2 => inferInstanceAs (Decidable (k1.val < k2.val))

/-- A value type `type Blob []byte` whose `Marshal` returns the bytes and whose
`Unmarshal` sets its receiver to the data: a codec that round-trips. -/
def blobCodec : Marshallable Bytes where
  Marshal := fun v => (v, none)
  Unmarshal := fun _ data => (data, none)

/-- The typed store `NewKeyValueStore[K, T](store)` for a built-in key type
`K`, over the adapter on the map engine. -/
def memStore (b : Builtin) (T : Type) (zero : T) (codec : Marshallable T) :
    KeyValueStoreImpl MemDB :=
  NewKeyValueStore (.builtin b) T zero codec (PebbleKeyValueStore memDB)

/-- A value type whose `Marshal` and `Unmarshal` always fail. -/
def failingCodec : Marshallable Bytes where
  Marshal := fun _ => ([], some (.other 1))
  Unmarshal := fun r _ => (r, some (.other 2))

/-- A write that reaches a raw store. -/
inductive RawWrite where
  | put (key value : Bytes)
  | delete (key : Bytes)
  deriving DecidableEq, Repr

/-- A raw store that only records, in order, the writes made to it; every
read misses. -/
def recordingStore : BinaryKeyValueStore (List RawWrite) where
  Put := fun log key value => (log ++ [RawWrite.put key value], none)
  Get := fun _ _ => ([], some .ErrNotFound)
  Has := fun _ _ => (false, none)
  Delete := fun log key => (log ++ [RawWrite.delete key], none)
  Range := fun _ _ _ _ t => some (t, none)

/-- An engine in which every operation fails with the error `e`. -/
def brokenDB (e : Error) : DB Unit where
  Set := fun p _ _ => (p, some e)
  Get := fun _ _ => ([], some e)
  Delete := fun p _ => (p, some e)
  NewIter := fun _ _ _ => ([], some e)

/-- Width in bytes of the encodings of a built-in key type: that of an integer
type or of a byte array type, `none` for `string`, whose encodings have any
length. -/
def Builtin.width (b : Builtin) : Option Nat :=
  match b.intWidth with
  | some n => some n
  | none => b.blockSize

/-- A byte sequence of exactly the width of the key type. -/
def Builtin.WellSized (b : Builtin) (data : Bytes) : Prop :=
  ∀ n, b.width = some n → data.length = n

/-- The value decoding step of `Range`, `var v T` followed by
`err = (any)(v).(Marshallable).Unmarshal(vb)`: the variable `v` and the error
after it. -/
def KeyValueStoreImpl.decodeValue {σ : Type} (kvs : KeyValueStoreImpl σ) (vb : Bytes) :
    kvs.T × Option Error :=
  let v := kvs.zero
  (v, (kvs.codec.Unmarshal v vb).2)

/-- The function literal that `Range` hands to the raw store: decode the key,
decode the value, call `fn` on the pair. -/
def KeyValueStoreImpl.rowVisitor {σ τ : Type} (kvs : KeyValueStoreImpl σ)
    (fn : τ → kvs.K.Val → kvs.T → Option (τ × Option Error)) :
    τ → Bytes → Bytes → Option (τ × Option Error) :=
  fun acc kb vb =>
    match unmarshallKey kvs.K kb with
    | none => none
    | some (_, some err) => some (acc, some err)
    | some (k, none) =>
        let v := kvs.zero
        match (kvs.codec.Unmarshal v vb).2 with
        | some err => some (acc, some err)
        | none => fn acc k v

/-- A scan of `rows` that starts with the visitor in state `t` and in which no
row errors: for each row in order, the key and the value decode with no error
and `fn`, called on the decoded pair, returns nil; `t'` is the state of the
visitor after the last call. -/
def KeyValueStoreImpl.VisitsAll {σ τ : Type} (kvs : KeyValueStoreImpl σ)
    (fn : τ → kvs.K.Val → kvs.T → Option (τ × Option Error)) :
    List (Bytes × Bytes) → τ → τ → Prop
  | [], t, t' => t' = t
  | (kb, vb) :: rest, t, t' =>
      ∃ k v t1, unmarshallKey kvs.K kb = some (k, none) ∧ kvs.decodeValue vb = (v, none) ∧
        fn t k v = some (t1, none) ∧ KeyValueStoreImpl.VisitsAll kvs fn rest t1 t'

/-- The row errors with `e` when the visitor is in state `t`: key decoding
returns `e`, or value decoding returns `e` (in both cases `fn` is not called
and the state stays `t' = t`), or `fn`, called on the decoded pair, returns
`e` and leaves the state `t'`. -/
def KeyValueStoreImpl.RowFails {σ τ : Type} (kvs : KeyValueStoreImpl σ)
    (fn : τ → kvs.K.Val → kvs.T → Option (τ × Option Error))
    (row : Bytes × Bytes) (t t' : τ) (e : Error) : Prop :=
  (∃ k, unmarshallKey kvs.K row.1 = some (k, some e) ∧ t' = t) ∨
  (∃ k v, unmarshallKey kvs.K row.1 = some (k, none) ∧
    kvs.decodeValue row.2 = (v, some e) ∧ t' = t) ∨
  (∃ k v, unmarshallKey kvs.K row.1 = some (k, none) ∧
    kvs.decodeValue row.2 = (v, none) ∧ fn t k v = some (t', some e))

/-- A visitor that records the keys it is called on and returns the error `e`
on the key `stop`. -/
def recordUntil (stop : Kvdb.uint8) (e : Error) :
    List Kvdb.uint8 → Kvdb.uint8 → Bytes → Option (List Kvdb.uint8 × Option Error) :=
  fun log k _ => some (log ++ [k], if k = stop then some e else none)

/-- A visitor that records the keys it is called on and never fails. -/
def recordKeys {α : Type} : List α → α → Bytes → Option (List α × Option Error) :=
  fun log k _ => some (log ++ [k], none)

/-! ## Lemmas on bytes and machine integers -/

theorem or_shiftLeft_eq_add (a b n : Nat) (h : a < 2 ^ n) : a ||| b <<< n = a + b * 2 ^ n := by
  rw [Nat.shiftLeft_eq, Nat.lor_comm, Nat.mul_comm b, ← Nat.mul_add_lt_is_or h b, Nat.add_comm]

theorem beVal_lt (a : Bytes) : beVal a < 256 ^ a.length := by
  induction a with
  | nil => simp [beVal]
  | cons b bs ih =>
    have hb := b.isLt
    simp only [beVal, List.length_cons, pow_succ]
    nlinarith [Nat.zero_le (256 ^ bs.length)]

theorem bytesLess_irrefl (a : Bytes) : bytesLess a a = false := by
  induction a with
  | nil => rfl
  | cons b bs ih => simp [bytesLess, ih]

theorem bytesLess_iff_beVal_lt :
    ∀ (a b : Bytes), a.length = b.length → (bytesLess a b = true ↔ beVal a < beVal b)
  | [], [], _ => by simp [bytesLess, beVal]
  | [], _ :: _, h => by simp at h
  | _ :: _, [], h => by simp at h
  | x :: xs, y :: ys, h => by
    have hl : xs.length = ys.length := by simpa using h
    have ih := bytesLess_iff_beVal_lt xs ys hl
    have hx := beVal_lt xs
    have hy := beVal_lt ys
    rw [hl] at hx
    simp only [bytesLess, beVal, Bool.or_eq_true, Bool.and_eq_true, decide_eq_true_eq, ih, hl]
    have hp : 0 < 256 ^ ys.length := by positivity
    constructor
    · rintro (hlt | ⟨heq, hlt⟩)
      · have : x.val + 1 ≤ y.val := hlt
        nlinarith
      · subst heq; omega
    · intro hlt
      rcases Nat.lt_trichotomy x.val y.val with h1 | h1 | h1
      · exact Or.inl h1
      · right
        refine ⟨Fin.ext h1, ?_⟩
        rw [h1] at hlt; omega
      · exfalso
        have : y.val + 1 ≤ x.val := h1
        nlinarith

theorem beVal_PutUint16 (v : uint16) : beVal (PutUint16 v) = v.val := by
  have h := v.isLt
  simp only [PutUint16, beVal, toByte, Nat.shiftRight_eq_div_pow, List.length_cons, List.length_nil]
  norm_num at h ⊢
  omega

theorem beVal_PutUint32 (v : uint32) : beVal (PutUint32 v) = v.val := by
  have h := v.isLt
  simp only [PutUint32, beVal, toByte, Nat.shiftRight_eq_div_pow, List.length_cons, List.length_nil]
  norm_num at h ⊢
  omega

theorem beVal_PutUint64 (v : uint64) : beVal (PutUint64 v) = v.val := by
  have h := v.isLt
  simp only [PutUint64, beVal, toByte, Nat.shiftRight_eq_div_pow, List.length_cons, List.length_nil]
  norm_num at h ⊢
  omega

theorem Uint16_eq_beVal (b0 b1 : Byte) : Uint16 [b0, b1] = some (beVal [b0, b1]) := by
  have h0 := b0.isLt
  have h1 := b1.isLt
  simp only [Uint16, beVal, List.length_cons, List.length_nil, Option.some.injEq]
  rw [or_shiftLeft_eq_add _ _ 8 (by omega)]
  omega

theorem Uint32_eq_beVal (b0 b1 b2 b3 : Byte) :
    Uint32 [b0, b1, b2, b3] = some (beVal [b0, b1, b2, b3]) := by
  have h0 := b0.isLt
  have h1 := b1.isLt
  have h2 := b2.isLt
  have h3 := b3.isLt
  simp only [Uint32, beVal, List.length_cons, List.length_nil, Option.some.injEq]
  rw [or_shiftLeft_eq_add _ _ 8 (by omega), or_shiftLeft_eq_add _ _ 16 (by omega),
    or_shiftLeft_eq_add _ _ 24 (by omega)]
  omega

theorem Uint64_eq_beVal (b0 b1 b2 b3 b4 b5 b6 b7 : Byte) :
    Uint64 [b0, b1, b2, b3, b4, b5, b6, b7] = some (beVal [b0, b1, b2, b3, b4, b5, b6, b7]) := by
  have h0 := b0.isLt
  have h1 := b1.isLt
  have h2 := b2.isLt
  have h3 := b3.isLt
  have h4 := b4.isLt
  have h5 := b5.isLt
  have h6 := b6.isLt
  have h7 := b7.isLt
  simp only [Uint64, beVal, List.length_cons, List.length_nil, Option.some.injEq]
  rw [or_shiftLeft_eq_add _ _ 8 (by omega), or_shiftLeft_eq_add _ _ 16 (by omega),
    or_shiftLeft_eq_add _ _ 24 (by omega), or_shiftLeft_eq_add _ _ 32 (by omega),
    or_shiftLeft_eq_add _ _ 40 (by omega), or_shiftLeft_eq_add _ _ 48 (by omega),
    or_shiftLeft_eq_add _ _ 56 (by omega)]
  omega

theorem Uint16_PutUint16 (v : uint16) : Uint16 (PutUint16 v) = some v.val := by
  rw [← beVal_PutUint16 v]; exact Uint16_eq_beVal _ _

theorem Uint32_PutUint32 (v : uint32) : Uint32 (PutUint32 v) = some v.val := by
  rw [← beVal_PutUint32 v]; exact Uint32_eq_beVal _ _ _ _

theorem Uint64_PutUint64 (v : uint64) : Uint64 (PutUint64 v) = some v.val := by
  rw [← beVal_PutUint64 v]; exact Uint64_eq_beVal _ _ _ _ _ _ _ _

theorem asUnsigned_natCast (w n : Nat) (h : n < 2 ^ w) : asUnsigned w (n : Int) = n := by
  unfold asUnsigned
  have h4 : (((2 ^ w : Nat)) : Int) = (2 : Int) ^ w := by push_cast; rfl
  rw [Int.emod_eq_of_lt (by omega) (by omega)]
  simp

theorem asSigned_asUnsigned (w : Nat) (hw : 0 < w) (k : Int)
    (h : -(2 : Int) ^ (w - 1) ≤ k ∧ k < (2 : Int) ^ (w - 1)) :
    asSigned w (asUnsigned w k) = k := by
  obtain ⟨v, rfl⟩ : ∃ v, w = v + 1 := ⟨w - 1, by omega⟩
  simp only [Nat.add_sub_cancel] at h
  have hN : (2 : Nat) ^ (v + 1) = 2 * 2 ^ v := by rw [pow_succ]; ring
  have hZ : (2 : Int) ^ (v + 1) = 2 * (2 : Int) ^ v := by rw [pow_succ]; ring
  have hc : (((2 ^ v : Nat)) : Int) = (2 : Int) ^ v := by push_cast; rfl
  have hp : (0 : Int) < (2 : Int) ^ v := by positivity
  have hu : ((asUnsigned (v + 1) k : Nat) : Int) = if 0 ≤ k then k else k + (2 : Int) ^ (v + 1) := by
    unfold asUnsigned
    rw [Int.toNat_of_nonneg (Int.emod_nonneg _ (by omega))]
    split
    · exact Int.emod_eq_of_lt (by omega) (by omega)
    · rw [← Int.add_emod_self]
      exact Int.emod_eq_of_lt (by omega) (by omega)
  have hlt := asUnsigned_lt (v + 1) k
  unfold asSigned
  simp only [Nat.add_sub_cancel]
  rw [Nat.mod_eq_of_lt hlt]
  split_ifs at hu with h0 <;> split <;> omega

theorem length_PutUint16 (v : uint16) : (PutUint16 v).length = 2 := rfl
theorem length_PutUint32 (v : uint32) : (PutUint32 v).length = 4 := rfl
theorem length_PutUint64 (v : uint64) : (PutUint64 v).length = 8 := rfl

theorem copyBlock_of_length (n : Nat) (k : Block n) : copyBlock n k.val = k := by
  apply Subtype.ext
  simp [copyBlock, k.property]

theorem toUIntW_natCast (w : Nat) (v : UIntW w) : toUIntW w ((v.val : Nat) : Int) = v :=
  Fin.ext (asUnsigned_natCast w v.val v.isLt)

theorem toSIntW_toUIntW (w : Nat) (hw : 0 < w) (k : SIntW w) :
    toSIntW w hw (toUIntW w k.val).val = k :=
  Subtype.ext (asSigned_asUnsigned w hw k.val k.property)

theorem toByte_val (v : Byte) : toByte v.val = v :=
  Fin.ext (Nat.mod_eq_of_lt v.isLt)

/-- Decoding inverts encoding on every built-in key type. -/
theorem unmarshallKey_marshallKey (b : Builtin) (k : b.Val) :
    (marshallKey (.builtin b) k).2 = none ∧
      unmarshallKey (.builtin b) (marshallKey (.builtin b) k).1 = some (k, none) := by
  refine ⟨by cases b <;> rfl, ?_⟩
  cases b
  case string => rfl
  case bytes16 => simp only [marshallKey, unmarshallKey, copyBlock_of_length]
  case bytes32 => simp only [marshallKey, unmarshallKey, copyBlock_of_length]
  case bytes64 => simp only [marshallKey, unmarshallKey, copyBlock_of_length]
  case int8 =>
    have h := toSIntW_toUIntW 8 (by decide) k
    have hlt := asUnsigned_lt 8 k.val
    simp only [marshallKey, unmarshallKey, decodeInt, toByte, List.length_singleton, ne_eq,
      not_true_eq_false, if_false, List.head?_cons, Option.map_some']
    rw [Nat.mod_eq_of_lt (by simpa using hlt)]
    exact congrArg (fun x => some (x, none)) h
  case uint8 =>
    simp only [marshallKey, unmarshallKey, decodeInt, List.length_singleton, ne_eq,
      not_true_eq_false, if_false, List.head?_cons, Option.map_some', toByte_val]
  case int16 =>
    simp only [marshallKey, unmarshallKey, decodeInt, length_PutUint16, ne_eq,
      not_true_eq_false, if_false, Uint16_PutUint16, Option.map_some', toSIntW_toUIntW]
  case uint16 =>
    simp only [marshallKey, unmarshallKey, decodeInt, length_PutUint16, ne_eq,
      not_true_eq_false, if_false, Uint16_PutUint16, Option.map_some', toUIntW_natCast]
  case int32 =>
    simp only [marshallKey, unmarshallKey, decodeInt, length_PutUint32, ne_eq,
      not_true_eq_false, if_false, Uint32_PutUint32, Option.map_some', toSIntW_toUIntW]
  case uint32 =>
    simp only [marshallKey, unmarshallKey, decodeInt, length_PutUint32, ne_eq,
      not_true_eq_false, if_false, Uint32_PutUint32, Option.map_some', toUIntW_natCast]
  case int64 =>
    simp only [marshallKey, unmarshallKey, decodeInt, length_PutUint64, ne_eq,
      not_true_eq_false, if_false, Uint64_PutUint64, Option.map_some', toSIntW_toUIntW]
  case uint64 =>
    simp only [marshallKey, unmarshallKey, decodeInt, length_PutUint64, ne_eq,
      not_true_eq_false, if_false, Uint64_PutUint64, Option.map_some', toUIntW_natCast]
  case int =>
    simp only [marshallKey, unmarshallKey, decodeInt, length_PutUint64, ne_eq,
      not_true_eq_false, if_false, Uint64_PutUint64, Option.map_some', toSIntW_toUIntW]
  case uint =>
    simp only [marshallKey, unmarshallKey, decodeInt, length_PutUint64, ne_eq,
      not_true_eq_false, if_false, Uint64_PutUint64, Option.map_some', toUIntW_natCast]

theorem asUnsigned_cast (w : Nat) (hw : 0 < w) (k : Int)
    (h : -(2 : Int) ^ (w - 1) ≤ k ∧ k < (2 : Int) ^ (w - 1)) :
    ((asUnsigned w k : Nat) : Int) = if 0 ≤ k then k else k + (2 : Int) ^ w := by
  obtain ⟨v, rfl⟩ : ∃ v, w = v + 1 := ⟨w - 1, by omega⟩
  simp only [Nat.add_sub_cancel] at h
  have hZ : (2 : Int) ^ (v + 1) = 2 * (2 : Int) ^ v := by rw [pow_succ]; ring
  have hp : (0 : Int) < (2 : Int) ^ v := by positivity
  unfold asUnsigned
  rw [Int.toNat_of_nonneg (Int.emod_nonneg _ (by omega))]
  split
  · exact Int.emod_eq_of_lt (by omega) (by omega)
  · rw [← Int.add_emod_self]
    exact Int.emod_eq_of_lt (by omega) (by omega)

/-- The encodings of a negative and of a non-negative value of a signed type
of `w` bits, read as big-endian numbers. -/
theorem asUnsigned_nonneg_lt_neg (w : Nat) (hw : 0 < w) (a c : SIntW w)
    (ha : a.val < 0) (hc : 0 ≤ c.val) : asUnsigned w c.val < asUnsigned w a.val := by
  have h1 := asUnsigned_cast w hw a.val a.property
  have h2 := asUnsigned_cast w hw c.val c.property
  rw [if_neg (by omega)] at h1
  rw [if_pos hc] at h2
  obtain ⟨v, rfl⟩ : ∃ v, w = v + 1 := ⟨w - 1, by omega⟩
  have hZ : (2 : Int) ^ (v + 1) = 2 * (2 : Int) ^ v := by rw [pow_succ]; ring
  have pa := a.property
  have pc := c.property
  simp only [Nat.add_sub_cancel] at pa pc
  omega

theorem beVal_singleton_toByte (n : Nat) (h : n < 256) : beVal [toByte n] = n := by
  simp [beVal, toByte, Nat.mod_eq_of_lt h]

theorem isBigEndian_singleton (n : Nat) : IsBigEndian 1 n [toByte n] := by
  refine ⟨rfl, ?_⟩
  rintro ⟨i, hi⟩
  have hi' : i < 1 := hi
  interval_cases i
  simp [toByte]

theorem isBigEndian_PutUint16 (v : uint16) : IsBigEndian 2 v.val (PutUint16 v) := by
  refine ⟨rfl, ?_⟩
  rintro ⟨i, hi⟩
  have hi' : i < 2 := hi
  interval_cases i <;> rfl

theorem isBigEndian_PutUint32 (v : uint32) : IsBigEndian 4 v.val (PutUint32 v) := by
  refine ⟨rfl, ?_⟩
  rintro ⟨i, hi⟩
  have hi' : i < 4 := hi
  interval_cases i <;> rfl

theorem isBigEndian_PutUint64 (v : uint64) : IsBigEndian 8 v.val (PutUint64 v) := by
  refine ⟨rfl, ?_⟩
  rintro ⟨i, hi⟩
  have hi' : i < 8 := hi
  interval_cases i <;> rfl

theorem MemDB.lookup_insert_self (db : MemDB) (key value : Bytes) :
    (db.insert key value).lookup key = some value := by
  induction db with
  | nil => simp [MemDB.insert, MemDB.lookup]
  | cons r rest ih =>
    unfold MemDB.insert
    split
    · simp [MemDB.lookup]
    · split
      · simp [MemDB.lookup]
      · rename_i h1 h2
        have hne : ¬ r.1 = key := fun h => h2 h.symm
        simpa [MemDB.lookup, List.find?_cons, hne] using ih

theorem MemDB.lookup_erase_self (db : MemDB) (key : Bytes) :
    (db.erase key).lookup key = none := by
  simp [MemDB.erase, MemDB.lookup, List.find?_eq_none]

theorem marshallKey_builtin (b : Builtin) (k : b.Val) :
    marshallKey (.builtin b) k = ((marshallKey (.builtin b) k).1, none) := by
  cases b <;> rfl

/-- Whatever the codec does, `Get` returns the zero value of `T`. -/
theorem KeyValueStoreImpl.Get_fst (σ : Type) (kvs : KeyValueStoreImpl σ) (s : σ) (key : kvs.K.Val) :
    (kvs.Get s key).1 = kvs.zero := by
  unfold KeyValueStoreImpl.Get
  split
  · rfl
  · split <;> rfl

theorem asUnsigned_asSigned (w : Nat) (hw : 0 < w) (n : Nat) (h : n < 2 ^ w) :
    asUnsigned w (asSigned w n) = n := by
  have hr := asSigned_range w hw n
  have hc := asUnsigned_cast w hw (asSigned w n) hr
  have hs : asSigned w n = if n < 2 ^ (w - 1) then (n : Int) else (n : Int) - (2 : Int) ^ w := by
    unfold asSigned
    rw [Nat.mod_eq_of_lt h]
  obtain ⟨v, rfl⟩ : ∃ v, w = v + 1 := ⟨w - 1, by omega⟩
  simp only [Nat.add_sub_cancel] at hs hr
  have hZ : (2 : Int) ^ (v + 1) = 2 * (2 : Int) ^ v := by rw [pow_succ]; ring
  have hN : (2 : Nat) ^ (v + 1) = 2 * 2 ^ v := by rw [pow_succ]; ring
  have hcast : (((2 ^ v : Nat)) : Int) = (2 : Int) ^ v := by push_cast; rfl
  have hp : (0 : Int) < (2 : Int) ^ v := by positivity
  split_ifs at hs with h1 <;> split_ifs at hc with h2 <;> omega

theorem toUIntW_toSIntW (w : Nat) (hw : 0 < w) (n : Nat) (h : n < 2 ^ w) :
    (toUIntW w (toSIntW w hw n).val).val = n :=
  asUnsigned_asSigned w hw n h

theorem PutUint16_beVal (b0 b1 : Byte) (v : uint16) (hv : v.val = beVal [b0, b1]) :
    PutUint16 v = [b0, b1] := by
  have h0 := b0.isLt
  have h1 := b1.isLt
  simp only [beVal, List.length_cons, List.length_nil] at hv
  simp only [PutUint16, toByte, Nat.shiftRight_eq_div_pow, hv, List.cons.injEq, and_true]
  refine ⟨Fin.ext ?_, Fin.ext ?_⟩ <;> simp only [] <;> omega

theorem PutUint32_beVal (b0 b1 b2 b3 : Byte) (v : uint32) (hv : v.val = beVal [b0, b1, b2, b3]) :
    PutUint32 v = [b0, b1, b2, b3] := by
  have h0 := b0.isLt
  have h1 := b1.isLt
  have h2 := b2.isLt
  have h3 := b3.isLt
  simp only [beVal, List.length_cons, List.length_nil] at hv
  simp only [PutUint32, toByte, Nat.shiftRight_eq_div_pow, hv, List.cons.injEq, and_true]
  refine ⟨Fin.ext ?_, Fin.ext ?_, Fin.ext ?_, Fin.ext ?_⟩ <;> simp only [] <;> omega

theorem PutUint64_beVal (b0 b1 b2 b3 b4 b5 b6 b7 : Byte) (v : uint64)
    (hv : v.val = beVal [b0, b1, b2, b3, b4, b5, b6, b7]) :
    PutUint64 v = [b0, b1, b2, b3, b4, b5, b6, b7] := by
  have h0 := b0.isLt
  have h1 := b1.isLt
  have h2 := b2.isLt
  have h3 := b3.isLt
  have h4 := b4.isLt
  have h5 := b5.isLt
  have h6 := b6.isLt
  have h7 := b7.isLt
  simp only [beVal, List.length_cons, List.length_nil] at hv
  simp only [PutUint64, toByte, Nat.shiftRight_eq_div_pow, hv, List.cons.injEq, and_true]
  refine ⟨Fin.ext ?_, Fin.ext ?_, Fin.ext ?_, Fin.ext ?_, Fin.ext ?_, Fin.ext ?_, Fin.ext ?_,
    Fin.ext ?_⟩ <;> simp only [] <;> omega

theorem beVal_lt_two_pow (a : Bytes) : beVal a < 2 ^ (8 * a.length) := by
  have h := beVal_lt a
  rwa [pow_mul]

theorem bytes_of_length_four (data : Bytes) (hl : data.length = 4) :
    ∃ b0 b1 b2 b3, data = [b0, b1, b2, b3] := by
  rcases data with _ | ⟨b0, _ | ⟨b1, _ | ⟨b2, _ | ⟨b3, _ | ⟨b4, r⟩⟩⟩⟩⟩ <;> simp at hl
  exact ⟨b0, b1, b2, b3, rfl⟩

theorem bytes_of_length_eight (data : Bytes) (hl : data.length = 8) :
    ∃ b0 b1 b2 b3 b4 b5 b6 b7, data = [b0, b1, b2, b3, b4, b5, b6, b7] := by
  rcases data with _ | ⟨b0, _ | ⟨b1, _ | ⟨b2, _ | ⟨b3, _ | ⟨b4, _ | ⟨b5, _ | ⟨b6, _ |
    ⟨b7, _ | ⟨b8, r⟩⟩⟩⟩⟩⟩⟩⟩⟩ <;> simp at hl
  exact ⟨b0, b1, b2, b3, b4, b5, b6, b7, rfl⟩

theorem copyBlock_val_of_length (n : Nat) (data : Bytes) (h : data.length = n) :
    (copyBlock n data).val = data := by
  simp [copyBlock, h]

theorem marshallKey_wellSized (b : Builtin) (k : b.Val) :
    b.WellSized (marshallKey (.builtin b) k).1 := by
  intro n hn
  cases b <;> simp only [Builtin.width, Builtin.intWidth, Builtin.blockSize, Option.some.injEq,
    reduceCtorEq] at hn <;> subst hn
  case bytes16 => exact k.property
  case bytes32 => exact k.property
  case bytes64 => exact k.property
  all_goals rfl

theorem unmarshallKey_of_wellSized (b : Builtin) (data : Bytes) (h : b.WellSized data) :
    ∃ k, unmarshallKey (.builtin b) data = some (k, none) ∧
      marshallKey (.builtin b) k = (data, none) := by
  cases b
  case string => exact ⟨data, rfl, rfl⟩
  case bytes16 =>
    have hl : data.length = 16 := h 16 rfl
    exact ⟨copyBlock 16 data, rfl, by simp only [marshallKey, copyBlock_val_of_length _ _ hl]⟩
  case bytes32 =>
    have hl : data.length = 32 := h 32 rfl
    exact ⟨copyBlock 32 data, rfl, by simp only [marshallKey, copyBlock_val_of_length _ _ hl]⟩
  case bytes64 =>
    have hl : data.length = 64 := h 64 rfl
    exact ⟨copyBlock 64 data, rfl, by simp only [marshallKey, copyBlock_val_of_length _ _ hl]⟩
  case int8 =>
    have hl : data.length = 1 := h 1 rfl
    obtain ⟨b0, rfl⟩ := List.length_eq_one.mp hl
    refine ⟨toSIntW 8 (by decide) b0.val, by simp [unmarshallKey, decodeInt], ?_⟩
    have := asUnsigned_asSigned 8 (by decide) b0.val b0.isLt
    simp only [marshallKey, toSIntW, this, toByte_val]
  case uint8 =>
    have hl : data.length = 1 := h 1 rfl
    obtain ⟨b0, rfl⟩ := List.length_eq_one.mp hl
    refine ⟨(toByte b0.val : Kvdb.uint8), by simp [unmarshallKey, decodeInt], ?_⟩
    simp only [marshallKey, toByte_val]
  case int16 =>
    have hl : data.length = 2 := h 2 rfl
    obtain ⟨b0, b1, rfl⟩ := List.length_eq_two.mp hl
    have hlt : beVal [b0, b1] < 2 ^ 16 := beVal_lt_two_pow [b0, b1]
    refine ⟨toSIntW 16 (by decide) (beVal [b0, b1]),
      by simp [unmarshallKey, decodeInt, Uint16_eq_beVal], ?_⟩
    simp only [marshallKey]
    rw [PutUint16_beVal b0 b1 _ (toUIntW_toSIntW 16 (by decide) _ hlt)]
  case uint16 =>
    have hl : data.length = 2 := h 2 rfl
    obtain ⟨b0, b1, rfl⟩ := List.length_eq_two.mp hl
    have hlt : beVal [b0, b1] < 2 ^ 16 := beVal_lt_two_pow [b0, b1]
    refine ⟨toUIntW 16 (beVal [b0, b1] : Nat),
      by simp [unmarshallKey, decodeInt, Uint16_eq_beVal], ?_⟩
    simp only [marshallKey]
    rw [PutUint16_beVal b0 b1 _ (asUnsigned_natCast 16 _ hlt)]
  case int32 =>
    have hl : data.length = 4 := h 4 rfl
    obtain ⟨b0, b1, b2, b3, rfl⟩ := bytes_of_length_four data hl
    have hlt : beVal [b0, b1, b2, b3] < 2 ^ 32 := beVal_lt_two_pow [b0, b1, b2, b3]
    refine ⟨toSIntW 32 (by decide) (beVal [b0, b1, b2, b3]),
      by simp [unmarshallKey, decodeInt, Uint32_eq_beVal], ?_⟩
    simp only [marshallKey]
    rw [PutUint32_beVal b0 b1 b2 b3 _ (toUIntW_toSIntW 32 (by decide) _ hlt)]
  case uint32 =>
    have hl : data.length = 4 := h 4 rfl
    obtain ⟨b0, b1, b2, b3, rfl⟩ := bytes_of_length_four data hl
    have hlt : beVal [b0, b1, b2, b3] < 2 ^ 32 := beVal_lt_two_pow [b0, b1, b2, b3]
    refine ⟨toUIntW 32 (beVal [b0, b1, b2, b3] : Nat),
      by simp [unmarshallKey, decodeInt, Uint32_eq_beVal], ?_⟩
    simp only [marshallKey]
    rw [PutUint32_beVal b0 b1 b2 b3 _ (asUnsigned_natCast 32 _ hlt)]
  case int64 =>
    have hl : data.length = 8 := h 8 rfl
    obtain ⟨b0, b1, b2, b3, b4, b5, b6, b7, rfl⟩ := bytes_of_length_eight data hl
    have hlt : beVal [b0, b1, b2, b3, b4, b5, b6, b7] < 2 ^ 64 :=
      beVal_lt_two_pow [b0, b1, b2, b3, b4, b5, b6, b7]
    refine ⟨toSIntW 64 (by decide) (beVal [b0, b1, b2, b3, b4, b5, b6, b7]),
      by simp [unmarshallKey, decodeInt, Uint64_eq_beVal], ?_⟩
    simp only [marshallKey]
    rw [PutUint64_beVal b0 b1 b2 b3 b4 b5 b6 b7 _ (toUIntW_toSIntW 64 (by decide) _ hlt)]
  case uint64 =>
    have hl : data.length = 8 := h 8 rfl
    obtain ⟨b0, b1, b2, b3, b4, b5, b6, b7, rfl⟩ := bytes_of_length_eight data hl
    have hlt : beVal [b0, b1, b2, b3, b4, b5, b6, b7] < 2 ^ 64 :=
      beVal_lt_two_pow [b0, b1, b2, b3, b4, b5, b6, b7]
    refine ⟨toUIntW 64 (beVal [b0, b1, b2, b3, b4, b5, b6, b7] : Nat),
      by simp [unmarshallKey, decodeInt, Uint64_eq_beVal], ?_⟩
    simp only [marshallKey]
    rw [PutUint64_beVal b0 b1 b2 b3 b4 b5 b6 b7 _ (asUnsigned_natCast 64 _ hlt)]
  case int =>
    have hl : data.length = 8 := h 8 rfl
    obtain ⟨b0, b1, b2, b3, b4, b5, b6, b7, rfl⟩ := bytes_of_length_eight data hl
    have hlt : beVal [b0, b1, b2, b3, b4, b5, b6, b7] < 2 ^ 64 :=
      beVal_lt_two_pow [b0, b1, b2, b3, b4, b5, b6, b7]
    refine ⟨toSIntW 64 (by decide) (beVal [b0, b1, b2, b3, b4, b5, b6, b7]),
      by simp [unmarshallKey, decodeInt, Uint64_eq_beVal], ?_⟩
    simp only [marshallKey]
    rw [PutUint64_beVal b0 b1 b2 b3 b4 b5 b6 b7 _ (toUIntW_toSIntW 64 (by decide) _ hlt)]
  case uint =>
    have hl : data.length = 8 := h 8 rfl
    obtain ⟨b0, b1, b2, b3, b4, b5, b6, b7, rfl⟩ := bytes_of_length_eight data hl
    have hlt : beVal [b0, b1, b2, b3, b4, b5, b6, b7] < 2 ^ 64 :=
      beVal_lt_two_pow [b0, b1, b2, b3, b4, b5, b6, b7]
    refine ⟨toUIntW 64 (beVal [b0, b1, b2, b3, b4, b5, b6, b7] : Nat),
      by simp [unmarshallKey, decodeInt, Uint64_eq_beVal], ?_⟩
    simp only [marshallKey, toUIntW_natCast]
    rw [PutUint64_beVal b0 b1 b2 b3 b4 b5 b6 b7 _ (asUnsigned_natCast 64 _ hlt)]

theorem MemDB.lookup_insert_of_ne (db : MemDB) (key value key2 : Bytes) (h : key2 ≠ key) :
    (db.insert key value).lookup key2 = db.lookup key2 := by
  have hne : ¬ key = key2 := fun e => h e.symm
  induction db with
  | nil => simp [MemDB.insert, MemDB.lookup, List.find?_cons, hne]
  | cons r rest ih =>
    unfold MemDB.insert
    split
    · simp [MemDB.lookup, List.find?_cons, hne]
    · split
      · rename_i h1 h2
        have hr : ¬ r.1 = key2 := fun e => hne (h2.trans e)
        simp [MemDB.lookup, List.find?_cons, hne, hr]
      · by_cases hr : r.1 = key2
        · simp [MemDB.lookup, List.find?_cons, hr]
        · simpa [MemDB.lookup, List.find?_cons, hr] using ih

theorem MemDB.lookup_erase_of_ne (db : MemDB) (key key2 : Bytes) (h : key2 ≠ key) :
    (db.erase key).lookup key2 = db.lookup key2 := by
  induction db with
  | nil => rfl
  | cons r rest ih =>
    obtain ⟨rk, rv⟩ := r
    simp only [MemDB.erase, MemDB.lookup] at ih ⊢
    by_cases hr : rk = key
    · subst hr
      have hr2 : ¬ rk = key2 := fun e => h e.symm
      rw [List.filter_cons_of_neg (by simp), List.find?_cons_of_neg _ (by simpa using hr2)]
      exact ih
    · rw [List.filter_cons_of_pos (by simpa using hr)]
      by_cases hr2 : rk = key2
      · rw [List.find?_cons_of_pos _ (by simpa using hr2),
          List.find?_cons_of_pos _ (by simpa using hr2)]
      · rw [List.find?_cons_of_neg _ (by simpa using hr2),
          List.find?_cons_of_neg _ (by simpa using hr2)]
        exact ih

theorem marshallKey_ne_of_ne (b : Builtin) (k1 k2 : b.Val) (h : k1 ≠ k2) :
    (marshallKey (.builtin b) k1).1 ≠ (marshallKey (.builtin b) k2).1 := by
  intro he
  have h1 := (unmarshallKey_marshallKey b k1).2
  rw [he, (unmarshallKey_marshallKey b k2).2] at h1
  simp only [Option.some.injEq, Prod.mk.injEq, and_true] at h1
  exact h h1.symm

theorem KeyValueStoreImpl.Range_eq_rowVisitor {σ τ : Type} (kvs : KeyValueStoreImpl σ) (s : σ)
    (frm upto : kvs.K.Val) (fn : τ → kvs.K.Val → kvs.T → Option (τ × Option Error)) (t : τ)
    (f tb : Bytes) (hf : marshallKey kvs.K frm = (f, none))
    (ht : marshallKey kvs.K upto = (tb, none)) :
    kvs.Range s frm upto fn t = kvs.Store.Range s f tb (kvs.rowVisitor fn) t := by
  simp only [KeyValueStoreImpl.Range, hf, ht]
  rfl

theorem KeyValueStoreImpl.rangeLoop_visitsAll {σ τ : Type} (kvs : KeyValueStoreImpl σ)
    (fn : τ → kvs.K.Val → kvs.T → Option (τ × Option Error))
    (pre rest : List (Bytes × Bytes)) (t t' : τ) (h : kvs.VisitsAll fn pre t t') :
    rangeLoop (kvs.rowVisitor fn) (pre ++ rest) t = rangeLoop (kvs.rowVisitor fn) rest t' := by
  induction pre generalizing t with
  | nil =>
    simp only [KeyValueStoreImpl.VisitsAll] at h
    subst h
    rfl
  | cons row pre ih =>
    obtain ⟨kb, vb⟩ := row
    obtain ⟨k, v, t1, hk, hv, hfn, hrest⟩ := h
    simp only [KeyValueStoreImpl.decodeValue, Prod.mk.injEq] at hv
    obtain ⟨hv1, hv2⟩ := hv
    subst hv1
    simp only [List.cons_append, rangeLoop, KeyValueStoreImpl.rowVisitor, hk, hv2, hfn]
    exact ih t1 hrest

theorem KeyValueStoreImpl.rangeLoop_rowFails {σ τ : Type} (kvs : KeyValueStoreImpl σ)
    (fn : τ → kvs.K.Val → kvs.T → Option (τ × Option Error))
    (row : Bytes × Bytes) (post : List (Bytes × Bytes)) (t t' : τ) (e : Error)
    (h : kvs.RowFails fn row t t' e) :
    rangeLoop (kvs.rowVisitor fn) (row :: post) t = some (t', some e) := by
  obtain ⟨kb, vb⟩ := row
  rcases h with ⟨k, hk, rfl⟩ | ⟨k, v, hk, hv, rfl⟩ | ⟨k, v, hk, hv, hfn⟩
  · simp only [rangeLoop, KeyValueStoreImpl.rowVisitor, hk]
  · simp only [KeyValueStoreImpl.decodeValue, Prod.mk.injEq] at hv
    simp only [rangeLoop, KeyValueStoreImpl.rowVisitor, hk, hv.2]
  · simp only [KeyValueStoreImpl.decodeValue, Prod.mk.injEq] at hv
    obtain ⟨hv1, hv2⟩ := hv
    subst hv1
    simp only [rangeLoop, KeyValueStoreImpl.rowVisitor, hk, hv2, hfn]

/-! ## The claims -/

/-- Claim C1, key round trip: for every built-in key type and every key `k` of
it, `marshallKey k` returns no error and `unmarshallKey` of the bytes returns,
without panic and with no error, exactly `k`. -/
theorem key_round_trip (b : Builtin) (k : b.Val) :
    (marshallKey (.builtin b) k).2 = none ∧
      unmarshallKey (.builtin b) (marshallKey (.builtin b) k).1 = some (k, none) :=
  unmarshallKey_marshallKey b k

/-- Claim C2, order preservation for unsigned integers and strings: if
`k1 < k2` in the natural order of an unsigned integer type or of `string`,
the encoding of `k1` is below the encoding of `k2` in unsigned lexicographic
byte order. -/
theorem unsigned_and_string_order_preserved (b : Builtin)
    (hb : b.isUnsigned = true ∨ b = Builtin.string) (k1 k2 : b.Val) (h : b.lt k1 k2) :
    bytesLess (marshallKey (.builtin b) k1).1 (marshallKey (.builtin b) k2).1 = true := by
  cases b <;> simp [Builtin.isUnsigned] at hb
  case string => exact h
  case uint8 =>
    simp only [marshallKey]
    refine (bytesLess_iff_beVal_lt _ _ (by simp)).mpr ?_
    rw [beVal_singleton_toByte _ k1.isLt, beVal_singleton_toByte _ k2.isLt]
    exact h
  case uint16 =>
    simp only [marshallKey]
    refine (bytesLess_iff_beVal_lt _ _ (by simp [PutUint16])).mpr ?_
    simp only [beVal_PutUint16]
    exact h
  case uint32 =>
    simp only [marshallKey]
    refine (bytesLess_iff_beVal_lt _ _ (by simp [PutUint32])).mpr ?_
    simp only [beVal_PutUint32]
    exact h
  case uint64 =>
    simp only [marshallKey]
    refine (bytesLess_iff_beVal_lt _ _ (by simp [PutUint64])).mpr ?_
    simp only [beVal_PutUint64]
    exact h
  case uint =>
    simp only [marshallKey, toUIntW_natCast]
    refine (bytesLess_iff_beVal_lt _ _ (by simp [PutUint64])).mpr ?_
    simp only [beVal_PutUint64]
    exact h

/-- Claim C2 at the `uint16` keys 255 and 256, which straddle a byte boundary. -/
theorem unsigned_and_string_order_preserved_witness :
    (Builtin.uint16.isUnsigned = true ∨ Builtin.uint16 = Builtin.string) ∧
    Builtin.lt .uint16 (⟨255, by decide⟩ : Kvdb.uint16) (⟨256, by decide⟩ : Kvdb.uint16) ∧
    bytesLess (marshallKey (.builtin .uint16) (⟨255, by decide⟩ : Kvdb.uint16)).1
      (marshallKey (.builtin .uint16) (⟨256, by decide⟩ : Kvdb.uint16)).1 = true :=
  ⟨Or.inl rfl, by decide,
    unsigned_and_string_order_preserved .uint16 (Or.inl rfl) ⟨255, by decide⟩ ⟨256, by decide⟩
      (by decide)⟩

/-- Claim C3 at its failing input: as `int8` keys, `-1 < 0`, yet the encoding
of `-1` (the byte `0xFF`) is not below the encoding of `0` (the byte `0x00`);
it is above it. -/
theorem signed_order_broken_int8 :
    Builtin.lt .int8 (⟨-1, by decide⟩ : Kvdb.int8) (⟨0, by decide⟩ : Kvdb.int8) ∧
    (marshallKey (.builtin .int8) (⟨-1, by decide⟩ : Kvdb.int8)).1 = [255] ∧
    (marshallKey (.builtin .int8) (⟨0, by decide⟩ : Kvdb.int8)).1 = [0] ∧
    bytesLess (marshallKey (.builtin .int8) (⟨-1, by decide⟩ : Kvdb.int8)).1
      (marshallKey (.builtin .int8) (⟨0, by decide⟩ : Kvdb.int8)).1 = false ∧
    bytesLess (marshallKey (.builtin .int8) (⟨0, by decide⟩ : Kvdb.int8)).1
      (marshallKey (.builtin .int8) (⟨-1, by decide⟩ : Kvdb.int8)).1 = true := by
  decide

/-- Claim C4, sign boundary of signed keys: for a signed integer key type, a
negative key `a` and a non-negative key `c`, the encoding of `c` is below the
encoding of `a` in unsigned lexicographic byte order. -/
theorem signed_negative_sorts_after_nonnegative (b : Builtin) (a c : b.Val) (va vc : Int)
    (ha : b.signedVal a = some va) (hc : b.signedVal c = some vc)
    (hneg : va < 0) (hnn : 0 ≤ vc) :
    bytesLess (marshallKey (.builtin b) c).1 (marshallKey (.builtin b) a).1 = true := by
  cases b <;> simp only [Builtin.signedVal, Option.some.injEq, reduceCtorEq] at ha hc
  case int8 =>
    subst ha hc
    simp only [marshallKey]
    refine (bytesLess_iff_beVal_lt _ _ (by simp)).mpr ?_
    rw [beVal_singleton_toByte _ (asUnsigned_lt 8 _), beVal_singleton_toByte _ (asUnsigned_lt 8 _)]
    exact asUnsigned_nonneg_lt_neg 8 (by decide) a c hneg hnn
  case int16 =>
    subst ha hc
    simp only [marshallKey]
    refine (bytesLess_iff_beVal_lt _ _ (by simp [PutUint16])).mpr ?_
    simp only [beVal_PutUint16]
    exact asUnsigned_nonneg_lt_neg 16 (by decide) a c hneg hnn
  case int32 =>
    subst ha hc
    simp only [marshallKey]
    refine (bytesLess_iff_beVal_lt _ _ (by simp [PutUint32])).mpr ?_
    simp only [beVal_PutUint32]
    exact asUnsigned_nonneg_lt_neg 32 (by decide) a c hneg hnn
  case int64 =>
    subst ha hc
    simp only [marshallKey]
    refine (bytesLess_iff_beVal_lt _ _ (by simp [PutUint64])).mpr ?_
    simp only [beVal_PutUint64]
    exact asUnsigned_nonneg_lt_neg 64 (by decide) a c hneg hnn
  case int =>
    subst ha hc
    simp only [marshallKey]
    refine (bytesLess_iff_beVal_lt _ _ (by simp [PutUint64])).mpr ?_
    simp only [beVal_PutUint64]
    exact asUnsigned_nonneg_lt_neg 64 (by decide) a c hneg hnn

/-- Claim C4 at the `int16` keys `-1` and `1`. -/
theorem signed_negative_sorts_after_nonnegative_witness :
    Builtin.signedVal .int16 (⟨-1, by decide⟩ : Kvdb.int16) = some (-1) ∧
    Builtin.signedVal .int16 (⟨1, by decide⟩ : Kvdb.int16) = some 1 ∧
    (-1 : Int) < 0 ∧ (0 : Int) ≤ 1 ∧
    bytesLess (marshallKey (.builtin .int16) (⟨1, by decide⟩ : Kvdb.int16)).1
      (marshallKey (.builtin .int16) (⟨-1, by decide⟩ : Kvdb.int16)).1 = true :=
  ⟨rfl, rfl, by decide, by decide,
    signed_negative_sorts_after_nonnegative .int16 ⟨-1, by decide⟩ ⟨1, by decide⟩ (-1) 1
      rfl rfl (by decide) (by decide)⟩

/-- Claim C5, big-endian fixed-width encoding: an unsigned key of 1, 2, 4 or 8
bytes encodes, with no error, to exactly that many bytes, byte `i` being
`(k >> (8 * (n - 1 - i))) mod 256`; a signed key encodes in the same way the
bit pattern `k mod 2^W`; `int` and `uint` keys take 8 bytes. -/
theorem big_endian_fixed_width :
    (∀ k : Kvdb.uint8, (marshallKey (.builtin .uint8) k).2 = none ∧
      IsBigEndian 1 k.val (marshallKey (.builtin .uint8) k).1) ∧
    (∀ k : Kvdb.uint16, (marshallKey (.builtin .uint16) k).2 = none ∧
      IsBigEndian 2 k.val (marshallKey (.builtin .uint16) k).1) ∧
    (∀ k : Kvdb.uint32, (marshallKey (.builtin .uint32) k).2 = none ∧
      IsBigEndian 4 k.val (marshallKey (.builtin .uint32) k).1) ∧
    (∀ k : Kvdb.uint64, (marshallKey (.builtin .uint64) k).2 = none ∧
      IsBigEndian 8 k.val (marshallKey (.builtin .uint64) k).1) ∧
    (∀ k : Kvdb.uint, (marshallKey (.builtin .uint) k).2 = none ∧
      IsBigEndian 8 k.val (marshallKey (.builtin .uint) k).1) ∧
    (∀ k : Kvdb.int8, (marshallKey (.builtin .int8) k).2 = none ∧
      IsBigEndian 1 (k.val % 2 ^ 8).toNat (marshallKey (.builtin .int8) k).1) ∧
    (∀ k : Kvdb.int16, (marshallKey (.builtin .int16) k).2 = none ∧
      IsBigEndian 2 (k.val % 2 ^ 16).toNat (marshallKey (.builtin .int16) k).1) ∧
    (∀ k : Kvdb.int32, (marshallKey (.builtin .int32) k).2 = none ∧
      IsBigEndian 4 (k.val % 2 ^ 32).toNat (marshallKey (.builtin .int32) k).1) ∧
    (∀ k : Kvdb.int64, (marshallKey (.builtin .int64) k).2 = none ∧
      IsBigEndian 8 (k.val % 2 ^ 64).toNat (marshallKey (.builtin .int64) k).1) ∧
    (∀ k : Kvdb.int, (marshallKey (.builtin .int) k).2 = none ∧
      IsBigEndian 8 (k.val % 2 ^ 64).toNat (marshallKey (.builtin .int) k).1) := by
  refine ⟨fun k => ⟨rfl, isBigEndian_singleton _⟩, fun k => ⟨rfl, isBigEndian_PutUint16 _⟩,
    fun k => ⟨rfl, isBigEndian_PutUint32 _⟩, fun k => ⟨rfl, isBigEndian_PutUint64 _⟩,
    fun k => ⟨rfl, ?_⟩,
    fun k => ⟨rfl, isBigEndian_singleton _⟩,
    fun k => ⟨rfl, isBigEndian_PutUint16 (toUIntW 16 k.val)⟩,
    fun k => ⟨rfl, isBigEndian_PutUint32 (toUIntW 32 k.val)⟩,
    fun k => ⟨rfl, isBigEndian_PutUint64 (toUIntW 64 k.val)⟩,
    fun k => ⟨rfl, isBigEndian_PutUint64 (toUIntW 64 k.val)⟩⟩
  simp only [marshallKey, toUIntW_natCast]
  exact isBigEndian_PutUint64 k

/-- Claim C6, injectivity: two distinct keys of a built-in key type have
distinct encodings. -/
theorem marshallKey_injective (b : Builtin) (k1 k2 : b.Val) (h : k1 ≠ k2) :
    (marshallKey (.builtin b) k1).1 ≠ (marshallKey (.builtin b) k2).1 := by
  intro he
  have h1 := (unmarshallKey_marshallKey b k1).2
  have h2 := (unmarshallKey_marshallKey b k2).2
  rw [he, h2] at h1
  simp only [Option.some.injEq, Prod.mk.injEq, and_true] at h1
  exact h h1.symm

/-- Claim C6 at the `int32` keys `-1` and `255`. -/
theorem marshallKey_injective_witness :
    (⟨-1, by decide⟩ : Kvdb.int32) ≠ (⟨255, by decide⟩ : Kvdb.int32) ∧
    (marshallKey (.builtin .int32) (⟨-1, by decide⟩ : Kvdb.int32)).1 ≠
      (marshallKey (.builtin .int32) (⟨255, by decide⟩ : Kvdb.int32)).1 :=
  ⟨by decide, marshallKey_injective .int32 ⟨-1, by decide⟩ ⟨255, by decide⟩ (by decide)⟩

/-- Claim C7, size validation for integer keys: for an integer key type of
width `n` bytes and any byte sequence whose length is not `n`, `unmarshallKey`
does not panic and returns the zero key together with an error that wraps
`ErrIncorrectSize`. -/
theorem unmarshallKey_incorrect_size (b : Builtin) (n : Nat) (hb : b.intWidth = some n)
    (data : Bytes) (h : data.length ≠ n) :
    ∃ e, unmarshallKey (.builtin b) data = some (b.zero, some e) ∧
      e.Is Error.ErrIncorrectSize = true := by
  cases b <;> simp only [Builtin.intWidth, Option.some.injEq, reduceCtorEq] at hb <;> subst hb <;>
    simp only [unmarshallKey, decodeInt, if_pos h] <;>
    exact ⟨_, rfl, by simp [Error.Is]⟩

/-- Claim C7 at the `uint32` key type and a three-byte input. -/
theorem unmarshallKey_incorrect_size_witness :
    Builtin.intWidth .uint32 = some 4 ∧ ([1, 2, 3] : Bytes).length ≠ 4 ∧
    ∃ e, unmarshallKey (.builtin .uint32) [1, 2, 3] = some (Builtin.zero .uint32, some e) ∧
      e.Is Error.ErrIncorrectSize = true :=
  ⟨rfl, by decide, unmarshallKey_incorrect_size .uint32 4 rfl [1, 2, 3] (by decide)⟩

/-- Claim C8 at its failing inputs: as a `[16]byte` key, a three-byte input is
decoded with no error into the input padded with zeros, and a seventeen-byte
input is decoded with no error into its first sixteen bytes. -/
theorem unmarshallKey_block_accepts_wrong_length :
    unmarshallKey (.builtin .bytes16) [1, 2, 3] =
      some (⟨[1, 2, 3, 0, 0, 0, 0, 0, 0, 0, 0, 0, 0, 0, 0, 0], rfl⟩, none) ∧
    unmarshallKey (.builtin .bytes16) [1, 2, 3, 4, 5, 6, 7, 8, 9, 10, 11, 12, 13, 14, 15, 16, 17] =
      some (⟨[1, 2, 3, 4, 5, 6, 7, 8, 9, 10, 11, 12, 13, 14, 15, 16], rfl⟩, none) := by
  decide

/-- Claim C9 at its failing input: with `uint8` keys, the value type `Blob`
whose codec round-trips, and the map store, `Put(1, [7])` succeeds and the
following `Get(1)` returns with no error the zero value `[]`, not `[7]`. -/
theorem put_then_get_returns_zero_value :
    (∀ v r : Bytes, blobCodec.Unmarshal r (blobCodec.Marshal v).1 = (v, none)) ∧
    ((memStore .uint8 Bytes [] blobCodec).Put [] (⟨1, by decide⟩ : Kvdb.uint8) [7]).2 = none ∧
    (memStore .uint8 Bytes [] blobCodec).Get
      ((memStore .uint8 Bytes [] blobCodec).Put [] (⟨1, by decide⟩ : Kvdb.uint8) [7]).1
      (⟨1, by decide⟩ : Kvdb.uint8) = (([] : Bytes), none) := by
  refine ⟨fun _ _ => rfl, by decide, by rfl⟩

/-- Claim C10, Has and Delete consistency over the map store, for every
built-in key `k`: after a successful `Put(k, v)`, `Has(k)` returns
`(true, nil)`; `Delete(k)` returns no error in any state of the store, so also
when `k` was never stored; after `Delete(k)`, `Has(k)` returns `(false, nil)`
and `Get(k)` returns the not-found error of the store. -/
theorem has_delete_consistency (b : Builtin) (T : Type) (zero : T) (codec : Marshallable T)
    (s : MemDB) (k : b.Val) (v : T)
    (hput : ((memStore b T zero codec).Put s k v).2 = none) :
    (memStore b T zero codec).Has ((memStore b T zero codec).Put s k v).1 k = (true, none) ∧
    (∀ s0 : MemDB, ((memStore b T zero codec).Delete s0 k).2 = none) ∧
    (memStore b T zero codec).Has ((memStore b T zero codec).Delete s k).1 k = (false, none) ∧
    (memStore b T zero codec).Get ((memStore b T zero codec).Delete s k).1 k
      = (zero, some Error.ErrNotFound) := by
  have hk := marshallKey_builtin b k
  generalize (marshallKey (.builtin b) k).1 = kb at hk
  refine ⟨?_, ?_, ?_, ?_⟩
  · rcases hm : codec.Marshal v with ⟨vb, _ | e⟩
    · simp [memStore, NewKeyValueStore, KeyValueStoreImpl.Put, KeyValueStoreImpl.Has, hk, hm,
        PebbleKeyValueStore, memDB, MemDB.lookup_insert_self]
    · simp [memStore, NewKeyValueStore, KeyValueStoreImpl.Put, hk, hm] at hput
  · intro s0
    simp [memStore, NewKeyValueStore, KeyValueStoreImpl.Delete, hk, PebbleKeyValueStore, memDB]
  · simp [memStore, NewKeyValueStore, KeyValueStoreImpl.Delete, KeyValueStoreImpl.Has, hk,
      PebbleKeyValueStore, memDB, MemDB.lookup_erase_self]
  · simp [memStore, NewKeyValueStore, KeyValueStoreImpl.Delete, KeyValueStoreImpl.Get, hk,
      PebbleKeyValueStore, memDB, MemDB.lookup_erase_self]

/-- Claim C10 at the `uint16` key 258 with the value `[7]`, in a store that
holds another key. -/
theorem has_delete_consistency_witness :
    ((memStore .uint16 Bytes [] blobCodec).Put [([0, 5], [9])]
      (⟨258, by decide⟩ : Kvdb.uint16) [7]).2 = none ∧
    ((memStore .uint16 Bytes [] blobCodec).Has
      ((memStore .uint16 Bytes [] blobCodec).Put [([0, 5], [9])]
        (⟨258, by decide⟩ : Kvdb.uint16) [7]).1 (⟨258, by decide⟩ : Kvdb.uint16) = (true, none) ∧
    (∀ s0 : MemDB, ((memStore .uint16 Bytes [] blobCodec).Delete s0
      (⟨258, by decide⟩ : Kvdb.uint16)).2 = none) ∧
    (memStore .uint16 Bytes [] blobCodec).Has
      ((memStore .uint16 Bytes [] blobCodec).Delete [([0, 5], [9])]
        (⟨258, by decide⟩ : Kvdb.uint16)).1 (⟨258, by decide⟩ : Kvdb.uint16) = (false, none) ∧
    (memStore .uint16 Bytes [] blobCodec).Get
      ((memStore .uint16 Bytes [] blobCodec).Delete [([0, 5], [9])]
        (⟨258, by decide⟩ : Kvdb.uint16)).1 (⟨258, by decide⟩ : Kvdb.uint16)
      = (([] : Bytes), some Error.ErrNotFound)) :=
  ⟨by decide, has_delete_consistency .uint16 Bytes [] blobCodec [([0, 5], [9])]
    ⟨258, by decide⟩ [7] (by decide)⟩

/-- Claim C11, encode errors reach no store: in every state `s` of every raw
store, if `marshallKey` fails then `Put`, `Get`, `Has`, `Delete` and `Range`
return exactly that error, and if `Marshal` of the value fails then `Put`
returns exactly that error; the state of the store is returned unchanged and
no result depends on an operation of the store. -/
theorem encode_errors_reach_no_store {σ : Type} (kvs : KeyValueStoreImpl σ) (s : σ) :
    (∀ key value kb err, marshallKey kvs.K key = (kb, some err) →
      kvs.Put s key value = (s, some err)) ∧
    (∀ key value kb vb err, marshallKey kvs.K key = (kb, none) →
      kvs.codec.Marshal value = (vb, some err) → kvs.Put s key value = (s, some err)) ∧
    (∀ key kb err, marshallKey kvs.K key = (kb, some err) →
      kvs.Get s key = (kvs.zero, some err) ∧ kvs.Has s key = (false, some err) ∧
      kvs.Delete s key = (s, some err)) ∧
    (∀ (τ : Type) (frm upto : kvs.K.Val)
        (fn : τ → kvs.K.Val → kvs.T → Option (τ × Option Error)) (t : τ) fb err,
      marshallKey kvs.K frm = (fb, some err) →
      kvs.Range s frm upto fn t = some (t, some err)) ∧
    (∀ (τ : Type) (frm upto : kvs.K.Val)
        (fn : τ → kvs.K.Val → kvs.T → Option (τ × Option Error)) (t : τ) fb tb err,
      marshallKey kvs.K frm = (fb, none) → marshallKey kvs.K upto = (tb, some err) →
      kvs.Range s frm upto fn t = some (t, some err)) := by
  refine ⟨?_, ?_, ?_, ?_, ?_⟩
  · intro key value kb err hk
    simp only [KeyValueStoreImpl.Put, hk]
  · intro key value kb vb err hk hv
    simp only [KeyValueStoreImpl.Put, hk, hv]
  · intro key kb err hk
    simp only [KeyValueStoreImpl.Get, KeyValueStoreImpl.Has, KeyValueStoreImpl.Delete, hk,
      and_self]
  · intro τ frm upto fn t fb err hk
    simp only [KeyValueStoreImpl.Range, hk]
  · intro τ frm upto fn t fb tb err hf ht
    simp only [KeyValueStoreImpl.Range, hf, ht]

/-- Claim C11 on the recording store with one earlier write: a key of an
unsupported type, and a `uint8` key with a value whose `Marshal` fails. -/
theorem encode_errors_reach_no_store_witness :
    (NewKeyValueStore (.unsupported Unit ()) Bytes [] blobCodec recordingStore).Put
        [RawWrite.put [1] [2]] () [7]
      = ([RawWrite.put [1] [2]], some Error.ErrUnimplemented) ∧
    (NewKeyValueStore (.builtin .uint8) Bytes [] failingCodec recordingStore).Put
        [RawWrite.put [1] [2]] (⟨3, by decide⟩ : Kvdb.uint8) [7]
      = ([RawWrite.put [1] [2]], some (Error.other 1)) ∧
    (NewKeyValueStore (.unsupported Unit ()) Bytes [] blobCodec recordingStore).Delete
        [RawWrite.put [1] [2]] ()
      = ([RawWrite.put [1] [2]], some Error.ErrUnimplemented) :=
  ⟨(encode_errors_reach_no_store
      (NewKeyValueStore (.unsupported Unit ()) Bytes [] blobCodec recordingStore)
      [RawWrite.put [1] [2]]).1 () [7] [] Error.ErrUnimplemented rfl,
   (encode_errors_reach_no_store
      (NewKeyValueStore (.builtin .uint8) Bytes [] failingCodec recordingStore)
      [RawWrite.put [1] [2]]).2.1 (⟨3, by decide⟩ : Kvdb.uint8) [7] [3] [] (Error.other 1)
      rfl rfl,
   ((encode_errors_reach_no_store
      (NewKeyValueStore (.unsupported Unit ()) Bytes [] blobCodec recordingStore)
      [RawWrite.put [1] [2]]).2.2.1 () [] Error.ErrUnimplemented rfl).2.2⟩

/-- Claim C12 as stated fails for the key type `any`, which is no built-in key
type and does not implement `Marshallable`: for the key `any("a")`,
`marshallKey` takes the `string` case and returns the byte `0x61` with no
error, not `(nil, ErrUnimplemented)`. -/
theorem marshallKey_any_string_succeeds :
    marshallKey KeyKind.any (AnyKey.builtin .string [97]) = ([97], none) ∧
    marshallKey KeyKind.any (AnyKey.builtin .string [97]) ≠ ([], some Error.ErrUnimplemented) := by
  decide

/-- Claim C12 as amended: for every non-interface key type that is no built-in
key type and does not implement `Marshallable`, `marshallKey` returns
`(nil, ErrUnimplemented)` for every key and `unmarshallKey` returns the zero
key with `ErrUnimplemented` for every byte sequence; for the interface key
type `any`, `unmarshallKey` does the same, and `marshallKey` does so for the
nil key and for a key whose dynamic type is neither known to the switch nor
`Marshallable`. -/
theorem unsupported_key_type_unimplemented :
    (∀ (α : Type) (zero key : α),
      marshallKey (.unsupported α zero) key = ([], some Error.ErrUnimplemented)) ∧
    (∀ (α : Type) (zero : α) (data : Bytes),
      unmarshallKey (.unsupported α zero) data = some (zero, some Error.ErrUnimplemented)) ∧
    (∀ data : Bytes,
      unmarshallKey KeyKind.any data = some (AnyKey.nil, some Error.ErrUnimplemented)) ∧
    marshallKey KeyKind.any AnyKey.nil = ([], some Error.ErrUnimplemented) ∧
    marshallKey KeyKind.any AnyKey.other = ([], some Error.ErrUnimplemented) :=
  ⟨fun _ _ _ => rfl, fun _ _ _ => rfl, fun _ => rfl, rfl, rfl⟩

/-- Claim C13, `Range` stops at the first error: let the bounds encode with no
error and let the raw `Range` run the loop of the adapter over the list `rows`.
If no row errors, the typed `Range` calls `fn` on the decoded pair of every
row in order and returns nil. If `rows = pre ++ row :: post`, no row of `pre`
errors and `row` errors with `e` (in key decoding, in value decoding or in
`fn`), the typed `Range` has called `fn` on the rows of `pre` in order (and on
`row` when the error is that of `fn`), returns exactly `e`, and visits no row
of `post`. -/
theorem range_stops_at_first_error {σ τ : Type} (kvs : KeyValueStoreImpl σ) (s : σ)
    (frm upto : kvs.K.Val) (fn : τ → kvs.K.Val → kvs.T → Option (τ × Option Error)) (t : τ)
    (f tb : Bytes) (rows : List (Bytes × Bytes))
    (hf : marshallKey kvs.K frm = (f, none)) (ht : marshallKey kvs.K upto = (tb, none))
    (hR : ∀ (g : τ → Bytes → Bytes → Option (τ × Option Error)) (u : τ),
      kvs.Store.Range s f tb g u = rangeLoop g rows u) :
    (∀ t', kvs.VisitsAll fn rows t t' → kvs.Range s frm upto fn t = some (t', none)) ∧
    (∀ pre row post tmid t' e, rows = pre ++ row :: post → kvs.VisitsAll fn pre t tmid →
      kvs.RowFails fn row tmid t' e → kvs.Range s frm upto fn t = some (t', some e)) := by
  rw [KeyValueStoreImpl.Range_eq_rowVisitor kvs s frm upto fn t f tb hf ht, hR]
  constructor
  · intro t' h
    have := KeyValueStoreImpl.rangeLoop_visitsAll kvs fn rows [] t t' h
    rw [List.append_nil] at this
    rw [this]
    rfl
  · intro pre row post tmid t' e hrows hpre hrow
    subst hrows
    rw [KeyValueStoreImpl.rangeLoop_visitsAll kvs fn pre (row :: post) t tmid hpre]
    exact KeyValueStoreImpl.rangeLoop_rowFails kvs fn row post tmid t' e hrow

/-- Claim C13 on the map store with the `uint8` keys 1, 2 and 3: a visitor that
fails on the key 2 is called exactly twice, on the keys 1 and 2, and `Range`
returns its error. -/
theorem range_stops_at_first_error_witness :
    (memStore .uint8 Bytes [] blobCodec).Range [([1], [10]), ([2], [11]), ([3], [12])]
        (⟨0, by decide⟩ : Kvdb.uint8) (⟨4, by decide⟩ : Kvdb.uint8)
        (recordUntil ⟨2, by decide⟩ (Error.other 9)) []
      = some ([⟨1, by decide⟩, ⟨2, by decide⟩], some (Error.other 9)) :=
  (range_stops_at_first_error (memStore .uint8 Bytes [] blobCodec)
      [([1], [10]), ([2], [11]), ([3], [12])]
      (⟨0, by decide⟩ : Kvdb.uint8) (⟨4, by decide⟩ : Kvdb.uint8)
      (recordUntil ⟨2, by decide⟩ (Error.other 9)) [] [0] [4]
      [([1], [10]), ([2], [11]), ([3], [12])] (by decide) (by decide) (fun _ _ => rfl)).2
    [([1], [10])] ([2], [11]) [([3], [12])] [⟨1, by decide⟩] [⟨1, by decide⟩, ⟨2, by decide⟩]
    (Error.other 9) rfl
    ⟨⟨1, by decide⟩, [], [⟨1, by decide⟩], rfl, rfl, rfl, rfl⟩
    (Or.inr (Or.inr ⟨⟨2, by decide⟩, [], rfl, rfl, rfl⟩))

/-- Claim C14 at its failing input: with `int8` keys on the map store, after
`Put(-1, _)`, `Put(0, _)` and `Put(5, _)` the store holds the raw keys `0x00`,
`0x05`, `0xFF` in this order; `Range(-1, 1, fn)` visits no row, although the
keys `-1` and `0` lie in `[-1, 1)`; `Range(1, -1, fn)` visits the key `5`,
although `1 > -1`. -/
theorem range_signed_bounds_int8 :
    ((memStore .int8 Bytes [] blobCodec).Put
      ((memStore .int8 Bytes [] blobCodec).Put
        ((memStore .int8 Bytes [] blobCodec).Put [] (⟨-1, by decide⟩ : Kvdb.int8) [1]).1
        (⟨0, by decide⟩ : Kvdb.int8) [2]).1
      (⟨5, by decide⟩ : Kvdb.int8) [3]).1 = [([0], [2]), ([5], [3]), ([255], [1])] ∧
    (memStore .int8 Bytes [] blobCodec).Range [([0], [2]), ([5], [3]), ([255], [1])]
        (⟨-1, by decide⟩ : Kvdb.int8) (⟨1, by decide⟩ : Kvdb.int8) recordKeys []
      = some ([], none) ∧
    (memStore .int8 Bytes [] blobCodec).Range [([0], [2]), ([5], [3]), ([255], [1])]
        (⟨1, by decide⟩ : Kvdb.int8) (⟨-1, by decide⟩ : Kvdb.int8) recordKeys []
      = some ([(⟨5, by decide⟩ : Kvdb.int8)], none) := by
  refine ⟨by decide, by rfl, by rfl⟩

/-- Claim C15 at its failing input: with `uint8` keys and `Blob` values on the
map store, after `Put(2, B)`, `Put(1, A)` and `Put(3, C)` with `A = [0xAA]`,
`B = [0xBB]`, `C = [0xCC]` the store holds the rows `0x01 ↦ A`, `0x02 ↦ B`,
`0x03 ↦ C`; `Collect(0, 4)` returns with no error three zero values, not
`[A, B, C]`. -/
theorem collect_returns_zero_values :
    ((memStore .uint8 Bytes [] blobCodec).Put
      ((memStore .uint8 Bytes [] blobCodec).Put
        ((memStore .uint8 Bytes [] blobCodec).Put [] (⟨2, by decide⟩ : Kvdb.uint8) [187]).1
        (⟨1, by decide⟩ : Kvdb.uint8) [170]).1
      (⟨3, by decide⟩ : Kvdb.uint8) [204]).1 = [([1], [170]), ([2], [187]), ([3], [204])] ∧
    (memStore .uint8 Bytes [] blobCodec).Collect [([1], [170]), ([2], [187]), ([3], [204])]
        (⟨0, by decide⟩ : Kvdb.uint8) (⟨4, by decide⟩ : Kvdb.uint8)
      = some (some [([] : Bytes), [], []], none) := by
  refine ⟨by decide, by rfl⟩

/-- Claim C16, values pass through untransformed: when both encodings succeed,
`Put(key, value)` is exactly one `Put` of the raw store on the bytes of
`marshallKey(key)` and the bytes of `value.Marshal()`, and returns what that
raw `Put` returns. -/
theorem put_passes_bytes_through {σ : Type} (kvs : KeyValueStoreImpl σ) (s : σ)
    (key : kvs.K.Val) (value : kvs.T) (kb vb : Bytes)
    (hk : marshallKey kvs.K key = (kb, none)) (hv : kvs.codec.Marshal value = (vb, none)) :
    kvs.Put s key value = kvs.Store.Put s kb vb := by
  simp only [KeyValueStoreImpl.Put, hk, hv]

/-- Claim C16 on the recording store: `Put(258, [7, 8])` with `uint16` keys
adds the single write `put [1, 2] [7, 8]` to the record. -/
theorem put_passes_bytes_through_witness :
    marshallKey (.builtin .uint16) (⟨258, by decide⟩ : Kvdb.uint16) = ([1, 2], none) ∧
    blobCodec.Marshal [7, 8] = ([7, 8], none) ∧
    (NewKeyValueStore (.builtin .uint16) Bytes [] blobCodec recordingStore).Put
        [] (⟨258, by decide⟩ : Kvdb.uint16) [7, 8]
      = ([RawWrite.put [1, 2] [7, 8]], none) :=
  ⟨by decide, rfl,
    put_passes_bytes_through
      (NewKeyValueStore (.builtin .uint16) Bytes [] blobCodec recordingStore) []
      (⟨258, by decide⟩ : Kvdb.uint16) [7, 8] [1, 2] [7, 8] (by decide) rfl⟩

/-- Claim C17, `Get` propagates store errors unchanged: if the key encodes to
`kb` and `Get(kb)` of the raw store returns the error `e`, the typed `Get`
returns the zero value of `T` with exactly `e`, whatever the codec of `T`. -/
theorem get_propagates_store_error {σ : Type} (kvs : KeyValueStoreImpl σ) (s : σ)
    (key : kvs.K.Val) (kb x : Bytes) (e : Error)
    (hk : marshallKey kvs.K key = (kb, none)) (hg : kvs.Store.Get s kb = (x, some e)) :
    kvs.Get s key = (kvs.zero, some e) := by
  simp only [KeyValueStoreImpl.Get, hk, hg]

/-- Claim C17 on the empty map store, with a codec whose `Unmarshal` would
fail with another error: `Get(1)` returns the zero value and `ErrNotFound`. -/
theorem get_propagates_store_error_witness :
    marshallKey (.builtin .uint8) (⟨1, by decide⟩ : Kvdb.uint8) = ([1], none) ∧
    (PebbleKeyValueStore memDB).Get [] [1] = ([], some Error.ErrNotFound) ∧
    (memStore .uint8 Bytes [] failingCodec).Get [] (⟨1, by decide⟩ : Kvdb.uint8)
      = (([] : Bytes), some Error.ErrNotFound) :=
  ⟨by decide, by decide,
    get_propagates_store_error (memStore .uint8 Bytes [] failingCodec) []
      (⟨1, by decide⟩ : Kvdb.uint8) [1] [] Error.ErrNotFound (by decide) (by decide)⟩

/-- Claim C18, `Has` of the adapter never fails on absence: if the engine
reports `ErrNotFound`, `Has` returns `(false, nil)`; if it reports another
error `e`, `Has` returns `(false, e)`; if it returns a value, `Has` returns
`(true, nil)`; so `Has` returns an error exactly when the engine fails with
an error other than `ErrNotFound`. -/
theorem pebble_has_never_fails_on_absence {σ : Type} (db : DB σ) (p : σ) (key : Bytes) :
    (∀ x, db.Get p key = (x, some Error.ErrNotFound) →
      (PebbleKeyValueStore db).Has p key = (false, none)) ∧
    (∀ x e, db.Get p key = (x, some e) → e ≠ Error.ErrNotFound →
      (PebbleKeyValueStore db).Has p key = (false, some e)) ∧
    (∀ v, db.Get p key = (v, none) → (PebbleKeyValueStore db).Has p key = (true, none)) ∧
    (((PebbleKeyValueStore db).Has p key).2 ≠ none ↔
      ∃ e, (db.Get p key).2 = some e ∧ e ≠ Error.ErrNotFound) := by
  refine ⟨?_, ?_, ?_, ?_⟩
  · intro x h
    simp [PebbleKeyValueStore, h]
  · intro x e h hne
    simp [PebbleKeyValueStore, h, hne]
  · intro v h
    simp [PebbleKeyValueStore, h]
  · rcases h : db.Get p key with ⟨v, _ | e⟩
    · simp [PebbleKeyValueStore, h]
    · by_cases he : e = Error.ErrNotFound
      · simp [PebbleKeyValueStore, h, he]
      · simp [PebbleKeyValueStore, h, he]

/-- Claim C18 on an engine that fails with an I/O error, and on the map engine
for an absent and for a present key. -/
theorem pebble_has_never_fails_on_absence_witness :
    (PebbleKeyValueStore (brokenDB (Error.other 5))).Has () [1] = (false, some (Error.other 5)) ∧
    (PebbleKeyValueStore memDB).Has [([2], [9])] [1] = (false, none) ∧
    (PebbleKeyValueStore memDB).Has [([2], [9])] [2] = (true, none) :=
  ⟨(pebble_has_never_fails_on_absence (brokenDB (Error.other 5)) () [1]).2.1 []
      (Error.other 5) rfl (by decide),
   (pebble_has_never_fails_on_absence memDB [([2], [9])] [1]).1 [] (by decide),
   (pebble_has_never_fails_on_absence memDB [([2], [9])] [2]).2.2.1 [9] (by decide)⟩

/-- Claim C19,decoding is a right inverse on well-sized input: for a built-in
key type, every byte sequence of the width of the type (any length for
`string`) decodes, with no panic and no error, to a key whose encoding is that
byte sequence; every encoding has that width and decodes to its key. -/
theorem decode_right_inverse (b : Builtin) :
    (∀ data, b.WellSized data →
      ∃ k, unmarshallKey (.builtin b) data = some (k, none) ∧
        marshallKey (.builtin b) k = (data, none)) ∧
    (∀ k, b.WellSized (marshallKey (.builtin b) k).1 ∧
      unmarshallKey (.builtin b) (marshallKey (.builtin b) k).1 = some (k, none)) :=
  ⟨fun data h => unmarshallKey_of_wellSized b data h,
   fun k => ⟨marshallKey_wellSized b k, (unmarshallKey_marshallKey b k).2⟩⟩

/-- Claim C19 at the `int16` key type and the bytes `0xFF 0xFE`, which decode
to `-2`. -/
theorem decode_right_inverse_witness :
    Builtin.WellSized .int16 [255, 254] ∧
    ∃ k, unmarshallKey (.builtin .int16) [255, 254] = some (k, none) ∧
      marshallKey (.builtin .int16) k = ([255, 254], none) :=
  ⟨fun n hn => by cases hn; rfl,
   (decode_right_inverse .int16).1 [255, 254] (fun n hn => by cases hn; rfl)⟩

/-- Claim C20, operations on one key do not disturb another: over the map
store, for two distinct keys `k1` and `k2` of a built-in key type, `Get(k2)`
and `Has(k2)` return after `Put(k1, v)` and after `Delete(k1)` exactly what
they returned before. -/
theorem other_key_undisturbed (b : Builtin) (T : Type) (zero : T) (codec : Marshallable T)
    (s : MemDB) (k1 k2 : b.Val) (v : T) (hne : k1 ≠ k2) :
    (memStore b T zero codec).Get ((memStore b T zero codec).Put s k1 v).1 k2
      = (memStore b T zero codec).Get s k2 ∧
    (memStore b T zero codec).Has ((memStore b T zero codec).Put s k1 v).1 k2
      = (memStore b T zero codec).Has s k2 ∧
    (memStore b T zero codec).Get ((memStore b T zero codec).Delete s k1).1 k2
      = (memStore b T zero codec).Get s k2 ∧
    (memStore b T zero codec).Has ((memStore b T zero codec).Delete s k1).1 k2
      = (memStore b T zero codec).Has s k2 := by
  have hb := marshallKey_ne_of_ne b k1 k2 hne
  have hk1 := marshallKey_builtin b k1
  have hk2 := marshallKey_builtin b k2
  generalize (marshallKey (.builtin b) k1).1 = kb1 at hk1 hb
  generalize (marshallKey (.builtin b) k2).1 = kb2 at hk2 hb
  have hb' : kb2 ≠ kb1 := fun e => hb e.symm
  have hput : ∀ vb, (MemDB.insert s kb1 vb).lookup kb2 = s.lookup kb2 :=
    fun vb => MemDB.lookup_insert_of_ne s kb1 vb kb2 hb'
  have hdel := MemDB.lookup_erase_of_ne s kb1 kb2 hb'
  refine ⟨?_, ?_, ?_, ?_⟩
  · rcases hm : codec.Marshal v with ⟨vb, _ | e⟩
    · simp [memStore, NewKeyValueStore, KeyValueStoreImpl.Put, KeyValueStoreImpl.Get, hk1, hk2,
        hm, PebbleKeyValueStore, memDB, hput]
    · simp [memStore, NewKeyValueStore, KeyValueStoreImpl.Put, hk1, hm]
  · rcases hm : codec.Marshal v with ⟨vb, _ | e⟩
    · simp [memStore, NewKeyValueStore, KeyValueStoreImpl.Put, KeyValueStoreImpl.Has, hk1, hk2,
        hm, PebbleKeyValueStore, memDB, hput]
    · simp [memStore, NewKeyValueStore, KeyValueStoreImpl.Put, hk1, hm]
  · simp [memStore, NewKeyValueStore, KeyValueStoreImpl.Delete, KeyValueStoreImpl.Get, hk1, hk2,
      PebbleKeyValueStore, memDB, hdel]
  · simp [memStore, NewKeyValueStore, KeyValueStoreImpl.Delete, KeyValueStoreImpl.Has, hk1, hk2,
      PebbleKeyValueStore, memDB, hdel]

/-- Claim C20 at the `uint16` keys 1 and 256 in a store that holds both. -/
theorem other_key_undisturbed_witness :
    (⟨1, by decide⟩ : Kvdb.uint16) ≠ (⟨256, by decide⟩ : Kvdb.uint16) ∧
    ((memStore .uint16 Bytes [] blobCodec).Get
        ((memStore .uint16 Bytes [] blobCodec).Put [([0, 1], [5]), ([1, 0], [6])]
          (⟨1, by decide⟩ : Kvdb.uint16) [7]).1 (⟨256, by decide⟩ : Kvdb.uint16)
      = (memStore .uint16 Bytes [] blobCodec).Get [([0, 1], [5]), ([1, 0], [6])]
          (⟨256, by decide⟩ : Kvdb.uint16) ∧
    (memStore .uint16 Bytes [] blobCodec).Has
        ((memStore .uint16 Bytes [] blobCodec).Put [([0, 1], [5]), ([1, 0], [6])]
          (⟨1, by decide⟩ : Kvdb.uint16) [7]).1 (⟨256, by decide⟩ : Kvdb.uint16)
      = (memStore .uint16 Bytes [] blobCodec).Has [([0, 1], [5]), ([1, 0], [6])]
          (⟨256, by decide⟩ : Kvdb.uint16) ∧
    (memStore .uint16 Bytes [] blobCodec).Get
        ((memStore .uint16 Bytes [] blobCodec).Delete [([0, 1], [5]), ([1, 0], [6])]
          (⟨1, by decide⟩ : Kvdb.uint16)).1 (⟨256, by decide⟩ : Kvdb.uint16)
      = (memStore .uint16 Bytes [] blobCodec).Get [([0, 1], [5]), ([1, 0], [6])]
          (⟨256, by decide⟩ : Kvdb.uint16) ∧
    (memStore .uint16 Bytes [] blobCodec).Has
        ((memStore .uint16 Bytes [] blobCodec).Delete [([0, 1], [5]), ([1, 0], [6])]
          (⟨1, by decide⟩ : Kvdb.uint16)).1 (⟨256, by decide⟩ : Kvdb.uint16)
      = (memStore .uint16 Bytes [] blobCodec).Has [([0, 1], [5]), ([1, 0], [6])]
          (⟨256, by decide⟩ : Kvdb.uint16)) :=
  ⟨by decide, other_key_undisturbed .uint16 Bytes [] blobCodec [([0, 1], [5]), ([1, 0], [6])]
    ⟨1, by decide⟩ ⟨256, by decide⟩ [7] (by decide)⟩

end Kvdb
